import Mathlib

/-!
Verification model of the stream-html-ai repository (streaming instruction
assembler, instruction dispatcher and tree-structured node store).

The JavaScript source is shallowly embedded: JS `Map`s become association
lists that keep insertion order, mutable objects become explicit state
passing, thrown exceptions become `Except.error`, and `JSON.parse` is
modelled by an executable parser for the JSON grammar (numbers are kept as
exact mantissa/exponent pairs; the double rounding of JS numbers is not
modelled, and no claim depends on it).
-/

/-- JSON values as produced by `JSON.parse`.  Object fields are kept in
source order; `JSON.parse` lets a later duplicate key win, so field lookup
below takes the last occurrence. -/
inductive Json where
  | null : Json
  | bool (b : Bool) : Json
  | num (mant : Int) (exp10 : Int) : Json
  | str (s : String) : Json
  | arr (elems : List Json) : Json
  | obj (fields : List (String × Json)) : Json

/-- JSON whitespace characters (the four accepted by `JSON.parse`). -/
def isJsonWs (c : Char) : Bool :=
  c = ' ' || c = '\t' || c = '\n' || c = '\r'

/-- Drop leading JSON whitespace. -/
def skipWs : List Char → List Char
  | [] => []
  | c :: cs => if isJsonWs c then skipWs cs else c :: cs

def isDigitChar (c : Char) : Bool := '0' ≤ c ∧ c ≤ '9'

def hexVal (c : Char) : Option Nat :=
  if '0' ≤ c ∧ c ≤ '9' then some (c.toNat - '0'.toNat)
  else if 'a' ≤ c ∧ c ≤ 'f' then some (c.toNat - 'a'.toNat + 10)
  else if 'A' ≤ c ∧ c ≤ 'F' then some (c.toNat - 'A'.toNat + 10)
  else none

/-- Body of a JSON string literal, after the opening quote.  Returns the
decoded characters and the input remaining after the closing quote.
Raw control characters are rejected, as `JSON.parse` rejects them. -/
def parseStrBody : List Char → Option (List Char × List Char)
  | [] => none
  | '"' :: rest => some ([], rest)
  | '\\' :: e :: rest =>
    match e with
    | '"' => (parseStrBody rest).map (fun (s, r) => ('"' :: s, r))
    | '\\' => (parseStrBody rest).map (fun (s, r) => ('\\' :: s, r))
    | '/' => (parseStrBody rest).map (fun (s, r) => ('/' :: s, r))
    | 'b' => (parseStrBody rest).map (fun (s, r) => ('\x08' :: s, r))
    | 'f' => (parseStrBody rest).map (fun (s, r) => ('\x0c' :: s, r))
    | 'n' => (parseStrBody rest).map (fun (s, r) => ('\n' :: s, r))
    | 'r' => (parseStrBody rest).map (fun (s, r) => ('\r' :: s, r))
    | 't' => (parseStrBody rest).map (fun (s, r) => ('\t' :: s, r))
    | 'u' =>
      match rest with
      | a :: b :: c :: d :: rest2 =>
        match hexVal a, hexVal b, hexVal c, hexVal d with
        | some x, some y, some z, some w =>
          let n := ((x * 16 + y) * 16 + z) * 16 + w
          (parseStrBody rest2).map (fun (s, r) => (Char.ofNat n :: s, r))
        | _, _, _, _ => none
      | _ => none
    | _ => none
  | c :: rest =>
    if c.toNat < 0x20 then none
    else (parseStrBody rest).map (fun (s, r) => (c :: s, r))

/-- Longest digit prefix. -/
def takeDigits : List Char → List Char × List Char
  | [] => ([], [])
  | c :: cs =>
    if isDigitChar c then
      let (d, r) := takeDigits cs
      (c :: d, r)
    else ([], c :: cs)

def digitsToNat (ds : List Char) : Nat :=
  ds.foldl (fun acc c => acc * 10 + (c.toNat - '0'.toNat)) 0

/-- Exponent part of a JSON number (or its absence), finishing the number
whose sign and digits are already known. -/
def parseNumExp (neg : Bool) (intDs fracDs : List Char) (cs : List Char) :
    Option (Json × List Char) :=
  let fin : Int → List Char → Option (Json × List Char) := fun expVal r =>
    let mantNat : Nat := digitsToNat (intDs ++ fracDs)
    let mant : Int := if neg then -(mantNat : Int) else (mantNat : Int)
    some (Json.num mant (expVal - (fracDs.length : Int)), r)
  match cs with
  | 'e' :: r | 'E' :: r =>
    let (esign, r1) : Int × List Char := match r with
      | '+' :: r2 => (1, r2)
      | '-' :: r2 => (-1, r2)
      | r2 => (1, r2)
    let (eds, r2) := takeDigits r1
    if eds = [] then none
    else fin (esign * (digitsToNat eds : Int)) r2
  | r => fin 0 r

/-- A JSON number, strict grammar: optional minus, integer part without a
superfluous leading zero, optional fraction, optional exponent.  The value
is kept exactly as mantissa and decimal exponent. -/
def parseNum (cs : List Char) : Option (Json × List Char) :=
  let (neg, cs1) : Bool × List Char := match cs with
    | '-' :: r => (true, r)
    | r => (false, r)
  let (intDs, cs2) := takeDigits cs1
  if intDs = [] then none
  else if intDs.length > 1 ∧ intDs.head? = some '0' then none
  else
    match cs2 with
    | '.' :: r =>
      let (fracDs, cs3) := takeDigits r
      if fracDs = [] then none
      else parseNumExp neg intDs fracDs cs3
    | _ => parseNumExp neg intDs [] cs2

/-- Array elements: value, then either a closing bracket or a comma and
more elements.  The element parser is passed in as `pv`. -/
def parseArrItems (pv : List Char → Option (Json × List Char)) :
    Nat → List Char → List Json → Option (Json × List Char)
  | 0, _, _ => none
  | fuel + 1, cs, acc =>
    match pv (skipWs cs) with
    | none => none
    | some (v, r) =>
      match skipWs r with
      | ']' :: r2 => some (Json.arr (acc ++ [v]), r2)
      | ',' :: r2 => parseArrItems pv fuel r2 (acc ++ [v])
      | _ => none

/-- Object members: string key, colon, value, then a closing brace or a
comma and more members. -/
def parseObjItems (pv : List Char → Option (Json × List Char)) :
    Nat → List Char → List (String × Json) → Option (Json × List Char)
  | 0, _, _ => none
  | fuel + 1, cs, acc =>
    match skipWs cs with
    | '"' :: cs1 =>
      match parseStrBody cs1 with
      | none => none
      | some (k, r) =>
        match skipWs r with
        | ':' :: r2 =>
          match pv (skipWs r2) with
          | none => none
          | some (v, r3) =>
            match skipWs r3 with
            | '}' :: r4 => some (Json.obj (acc ++ [(String.mk k, v)]), r4)
            | ',' :: r4 => parseObjItems pv fuel r4 (acc ++ [(String.mk k, v)])
            | _ => none
        | _ => none
    | _ => none

/-- One JSON value (after leading whitespace has been skipped), with fuel.
Every recursive call consumes at least one character first, so fuel equal to
the input length plus one never runs out on real input. -/
def parseVal : Nat → List Char → Option (Json × List Char)
  | 0, _ => none
  | _ + 1, [] => none
  | fuel + 1, c :: cs =>
    match c with
    | 'n' =>
      match cs with
      | 'u' :: 'l' :: 'l' :: r => some (Json.null, r)
      | _ => none
    | 't' =>
      match cs with
      | 'r' :: 'u' :: 'e' :: r => some (Json.bool true, r)
      | _ => none
    | 'f' =>
      match cs with
      | 'a' :: 'l' :: 's' :: 'e' :: r => some (Json.bool false, r)
      | _ => none
    | '"' =>
      (parseStrBody cs).map (fun (s, r) => (Json.str (String.mk s), r))
    | '[' =>
      match skipWs cs with
      | ']' :: r => some (Json.arr [], r)
      | cs1 => parseArrItems (parseVal fuel) fuel cs1 []
    | '{' =>
      match skipWs cs with
      | '}' :: r => some (Json.obj [], r)
      | cs1 => parseObjItems (parseVal fuel) fuel cs1 []
    | _ => parseNum (c :: cs)

/-- Model of `JSON.parse(s)`: one JSON value covering the entire string up
to surrounding whitespace; `none` models the thrown `SyntaxError`. -/
def jsonParse (s : String) : Option Json :=
  match parseVal (s.data.length + 1) (skipWs s.data) with
  | none => none
  | some (v, rest) => if skipWs rest = [] then some v else none

/-! ## JavaScript value helpers -/

/-- JS truthiness of a JSON value: `null`, `false`, `0` and the empty
string are falsy; every object and array is truthy. -/
def jsTruthy : Json → Bool
  | Json.null => false
  | Json.bool b => b
  | Json.num m _ => m ≠ 0
  | Json.str s => s ≠ ""
  | Json.arr _ => true
  | Json.obj _ => true

/-- Decimal rendering of an integrally valued JSON number
(`mant * 10 ^ exp10` for a nonnegative exponent). -/
def numToString (mant : Int) (exp10 : Int) : String :=
  match exp10 with
  | Int.ofNat e => toString (mant * (10 : Int) ^ e)
  | Int.negSucc _ => toString mant ++ "e" ++ toString exp10

/-- Worker for `jsToString`, structurally recursive on a fuel bounding the
array-nesting depth (only nested arrays recurse during rendering).  Arrays
join their elements with commas (a `null` element renders as the empty
string); objects render as `[object Object]`. -/
def jsToStringFuel : Nat → Json → String
  | 0, _ => ""
  | fuel + 1, v =>
    match v with
    | Json.null => "null"
    | Json.bool true => "true"
    | Json.bool false => "false"
    | Json.num m e => numToString m e
    | Json.str s => s
    | Json.obj _ => "[object Object]"
    | Json.arr xs =>
      String.intercalate "," (xs.map (fun w =>
        match w with
        | Json.null => ""
        | w2 => jsToStringFuel fuel w2))

/-- Array-nesting depth of a list of JSON values: how deep `Json.arr`
constructors nest (rendering recurses only through arrays). -/
def jdepthList : List Json → Nat
  | [] => 0
  | w :: rest =>
    max (match w with
         | Json.arr ys => jdepthList ys + 1
         | _ => 0)
      (jdepthList rest)

/-- Model of the JS `String(v)` conversion on JSON values.  Fractional
numbers fall back to an exponent rendering; no modelled input exercises
them. -/
def jsToString : Json → String
  | Json.null => "null"
  | Json.bool true => "true"
  | Json.bool false => "false"
  | Json.num m e => numToString m e
  | Json.str s => s
  | Json.obj _ => "[object Object]"
  | Json.arr xs => jsToStringFuel (jdepthList xs + 2) (Json.arr xs)

/-- Property access `v.key` on a parsed JSON value: defined only on
objects (`undefined`, i.e. `none`, on every other value).  `JSON.parse`
lets a later duplicate key overwrite an earlier one, so the last
occurrence wins. -/
def getField (v : Json) (key : String) : Option Json :=
  match v with
  | Json.obj fields => (fields.reverse.find? (fun kv => kv.1 = key)).map (·.2)
  | _ => none

/-- The `Map` key a JSON value denotes.  String values are used verbatim;
a non-string value can never equal any string key already in the map, which
the leading control character models (ids that actually occur are plain
strings). -/
def keyOfJson : Json → String
  | Json.str s => s
  | v => "\x00" ++ jsToString v

/-! ## Node Store (`DOMManager`)

The store is the `elements` map of `dom-manager.js`: element id to
`{node, parentId, children}`, as an insertion-ordered association list.
Of the underlying DOM node only `textContent` is modelled; attribute,
class and style writes performed by `setProps` land on the DOM node and
are never read back by any modelled operation.  `document.createElement`
is modelled as total (its character-level tag validation is not modelled).
-/

/-- One entry of the `elements` map. `children` is the JS `Set` in
insertion order (no duplicates by construction). -/
structure ElemInfo where
  parentId : String
  children : List String
  textContent : String
deriving Repr, DecidableEq

/-- The `DOMManager` state.  `idCounter` replaces the `Date.now()` plus
`Math.random()` entropy of `generateId` with a deterministic counter; the
uniqueness the code relies on appears as an explicit hypothesis where a
theorem needs it. -/
structure Store where
  elems : List (String × ElemInfo)
  idCounter : Nat
deriving Repr, DecidableEq

/-- `Map.get` on an insertion-ordered association list. -/
def getEntry {α : Type} (l : List (String × α)) (k : String) : Option α :=
  match l with
  | [] => none
  | (k', v) :: rest => if k' = k then some v else getEntry rest k

/-- `Map.set`: replace in place if the key exists, else append. -/
def setEntry {α : Type} (l : List (String × α)) (k : String) (v : α) :
    List (String × α) :=
  match l with
  | [] => [(k, v)]
  | (k', v') :: rest =>
    if k' = k then (k, v) :: rest else (k', v') :: setEntry rest k v

/-- `Map.delete`. -/
def eraseEntry {α : Type} (l : List (String × α)) (k : String) :
    List (String × α) :=
  match l with
  | [] => []
  | (k', v') :: rest =>
    if k' = k then rest else (k', v') :: eraseEntry rest k

/-- `Set.add`: no-op when already present, else append. -/
def addChild (l : List String) (c : String) : List String :=
  if c ∈ l then l else l ++ [c]

/-- An id is live when the `elements` map has it. -/
def Store.live (s : Store) (k : String) : Bool :=
  (getEntry s.elems k).isSome

/-- `generateId()`: the generated id string for the current counter. -/
def genId (s : Store) : String :=
  "element_" ++ toString s.idCounter

/-- `removeElement`, with explicit fuel standing for the JS call stack:
recursively remove the recorded children (the iterated `Set` is the one
captured on entry; a child already gone is a silent no-op), then detach
from the parent's child set, then delete the id. -/
def removeElementFuel : Nat → Store → String → Store
  | 0, s, _ => s
  | fuel + 1, s, elementId =>
    match getEntry s.elems elementId with
    | none => s
    | some info =>
      let s1 := info.children.foldl (fun acc c => removeElementFuel fuel acc c) s
      let s2 :=
        if info.parentId ≠ "" ∧ info.parentId ≠ "root" then
          match getEntry s1.elems info.parentId with
          | some pinfo =>
            let pinfo2 := { pinfo with children := pinfo.children.erase elementId }
            { s1 with elems := setEntry s1.elems info.parentId pinfo2 }
          | none => s1
        else s1
      { s2 with elems := eraseEntry s2.elems elementId }

/-- `DOMManager.removeElement(elementId)`.  The recursion depth of the JS
original is the height of the child tree, at most the number of live
elements, so this fuel never runs out on states the manager builds. -/
def removeElement (s : Store) (elementId : String) : Store :=
  removeElementFuel (s.elems.length + 1) s elementId

/-- The modelled slice of a `props` object: `id` picks the element id,
`textContent` initializes or replaces the node text (skipped when absent
or `null`, exactly as `setProps` checks); every other key only touches
the DOM node. -/
structure Props where
  id : Option Json
  textContent : Option Json

/-- The text `setProps` leaves on a fresh node: `String(textContent)`
when the prop is present and non-`null`, otherwise the empty text of a
freshly created element. -/
def propsText (p : Props) : String :=
  match p.textContent with
  | some v => match v with
    | Json.null => ""
    | w => jsToString w
  | none => ""

/-- `DOMManager.createElement(parentId, tagName, props)`: pick the id
(`props.id || generateId()`), remove a previous occupant of that id,
install the node with an empty child set and `parentId || 'root'`, then
append the id to the parent's child set when the parent is a live
non-root id.  Returns the final id with the new state. -/
def createElement (s : Store) (parentId : String) (tagName : String)
    (props : Props) : String × Store :=
  let (elementId, s0) : String × Store :=
    match props.id with
    | some v =>
      if jsTruthy v then (keyOfJson v, s)
      else (genId s, { s with idCounter := s.idCounter + 1 })
    | none => (genId s, { s with idCounter := s.idCounter + 1 })
  let s1 := if Store.live s0 elementId then removeElement s0 elementId else s0
  let info : ElemInfo :=
    { parentId := if parentId = "" then "root" else parentId
      children := []
      textContent := propsText props }
  let s2 := { s1 with elems := setEntry s1.elems elementId info }
  let s3 :=
    if parentId ≠ "" ∧ parentId ≠ "root" then
      match getEntry s2.elems parentId with
      | some pinfo =>
        let pinfo2 := { pinfo with children := addChild pinfo.children elementId }
        { s2 with elems := setEntry s2.elems parentId pinfo2 }
      | none => s2
    else s2
  (elementId, s3)

/-- `DOMManager.updateElement(elementId, props)`: `NotFound` failure when
the id is not live; otherwise apply `setProps` (here: the `textContent`
slice), and if `props.id` is truthy and differs from the current id,
re-key the entry under the new id, drop the old key, and swap the old id
for the new one in the parent's child set.  The children of the renamed
node are not touched. -/
def updateElement (s : Store) (elementId : String) (props : Props) :
    Except String Store :=
  match getEntry s.elems elementId with
  | none => Except.error ("Element with id \"" ++ elementId ++ "\" not found")
  | some info =>
    let info1 : ElemInfo :=
      match props.textContent with
      | some v => match v with
        | Json.null => info
        | w => { info with textContent := jsToString w }
      | none => info
    let s1 := { s with elems := setEntry s.elems elementId info1 }
    match props.id with
    | some v =>
      if jsTruthy v ∧ keyOfJson v ≠ elementId then
        let newId := keyOfJson v
        let s2 := { s1 with elems := setEntry s1.elems newId info1 }
        let s3 := { s2 with elems := eraseEntry s2.elems elementId }
        let s4 :=
          if info1.parentId ≠ "" ∧ info1.parentId ≠ "root" then
            match getEntry s3.elems info1.parentId with
            | some pinfo =>
              let ch2 := addChild (pinfo.children.erase elementId) newId
              let pinfo2 := { pinfo with children := ch2 }
              { s3 with elems := setEntry s3.elems info1.parentId pinfo2 }
            | none => s3
          else s3
        Except.ok s4
      else Except.ok s1
    | none => Except.ok s1

/-- `DOMManager.setText(elementId, text)`: `NotFound` failure when the id
is not live, else replace the node's text (`node.textContent = text`; the
recorded child set is not touched by the JS original either). -/
def setTextStore (s : Store) (elementId : String) (text : String) :
    Except String Store :=
  match getEntry s.elems elementId with
  | none => Except.error ("Element with id \"" ++ elementId ++ "\" not found")
  | some info =>
    let info2 := { info with textContent := text }
    Except.ok { s with elems := setEntry s.elems elementId info2 }

/-- `DOMManager.appendText(elementId, text)`: `NotFound` failure when the
id is not live, else `node.textContent += text`. -/
def appendTextStore (s : Store) (elementId : String) (text : String) :
    Except String Store :=
  match getEntry s.elems elementId with
  | none => Except.error ("Element with id \"" ++ elementId ++ "\" not found")
  | some info =>
    let info2 := { info with textContent := info.textContent ++ text }
    Except.ok { s with elems := setEntry s.elems elementId info2 }

/-! ## Tool functions (`tools.js`)

Each tool validates its arguments and delegates to the `DOMManager`.  A
thrown `Error` is an `Except.error` carrying the message. -/

/-- The modelled slice of a `props` JSON value (property access on a
non-object yields `undefined`). -/
def propsOfJson (p : Json) : Props :=
  { id := getField p "id", textContent := getField p "textContent" }

/-- The parent id `h` hands to `createElement`: `'null'`, `null` and
`undefined` become `'root'`; a truthy id that is not `'root'` is kept only
when it is live, else falls back to `'root'`; any remaining falsy value
falls to `'root'` through `parentId || 'root'`. -/
def effectiveParent (s : Store) (pid : Option Json) : String :=
  match pid with
  | none => "root"
  | some Json.null => "root"
  | some (Json.str "null") => "root"
  | some v =>
    if jsTruthy v then
      let k := keyOfJson v
      if k = "root" then "root"
      else if Store.live s k then k else "root"
    else "root"

/-- `h(parentId, tagName, props)`: reject a missing, empty or non-string
tag name, resolve the parent, create the element.  Returns the element id. -/
def toolH (s : Store) (parentId : Option Json) (tagName : Option Json)
    (props : Json) : Except String (Json × Store) :=
  match tagName with
  | some (Json.str t) =>
    if t = "" then Except.error "tagName must be a non-empty string"
    else
      let p := effectiveParent s parentId
      let (eid, s2) := createElement s p t (propsOfJson props)
      Except.ok (Json.str eid, s2)
  | _ => Except.error "tagName must be a non-empty string"

/-- The shared `elementId` validation of the four non-creating tools:
must be a truthy JS string. -/
def checkElementId (v : Option Json) : Except String String :=
  match v with
  | some (Json.str e) =>
    if e = "" then Except.error "elementId must be a non-empty string"
    else Except.ok e
  | _ => Except.error "elementId must be a non-empty string"

/-- The `{success: true, elementId}` value the mutating tools return. -/
def successResult (e : String) : Json :=
  Json.obj [("success", Json.bool true), ("elementId", Json.str e)]

/-- `updateElement(elementId, props)` of `tools.js`. -/
def toolUpdateElement (s : Store) (elementId : Option Json) (props : Json) :
    Except String (Json × Store) :=
  match checkElementId elementId with
  | Except.error e => Except.error e
  | Except.ok e =>
    match updateElement s e (propsOfJson props) with
    | Except.error msg => Except.error msg
    | Except.ok s2 => Except.ok (successResult e, s2)

/-- `setText(elementId, text)` of `tools.js`: the text written is
`String(text || '')`. -/
def toolSetText (s : Store) (elementId : Option Json) (text : Json) :
    Except String (Json × Store) :=
  match checkElementId elementId with
  | Except.error e => Except.error e
  | Except.ok e =>
    let t := if jsTruthy text then jsToString text else ""
    match setTextStore s e t with
    | Except.error msg => Except.error msg
    | Except.ok s2 => Except.ok (successResult e, s2)

/-- `appendText(elementId, text)` of `tools.js`. -/
def toolAppendText (s : Store) (elementId : Option Json) (text : Json) :
    Except String (Json × Store) :=
  match checkElementId elementId with
  | Except.error e => Except.error e
  | Except.ok e =>
    let t := if jsTruthy text then jsToString text else ""
    match appendTextStore s e t with
    | Except.error msg => Except.error msg
    | Except.ok s2 => Except.ok (successResult e, s2)

/-- `removeElement(elementId)` of `tools.js` (the store removal itself
never fails). -/
def toolRemoveElement (s : Store) (elementId : Option Json) :
    Except String (Json × Store) :=
  match checkElementId elementId with
  | Except.error e => Except.error e
  | Except.ok e => Except.ok (successResult e, removeElement s e)

/-! ## Dispatcher (`ToolCallHandler` of `tool-handler.js`) -/

/-- The `arguments` field of an instruction: a JS string (to be
`JSON.parse`d), a structured value, or absent. -/
inductive ToolArgs where
  | str (s : String)
  | val (v : Json)
  | undef

/-- An instruction as consumed by the dispatcher. -/
structure ToolCall where
  name : String
  args : ToolArgs

/-- Argument normalization of `executeToolCall`: a string is parsed as
JSON (a parse failure is the thrown `Invalid JSON arguments` error); a
falsy non-string becomes `{}`. -/
def parseToolArgs : ToolArgs → Except String Json
  | ToolArgs.str s =>
    match jsonParse s with
    | some v => Except.ok v
    | none => Except.error ("Invalid JSON arguments: " ++ s)
  | ToolArgs.val v =>
    match v with
    | Json.str s =>
      match jsonParse s with
      | some w => Except.ok w
      | none => Except.error ("Invalid JSON arguments: " ++ s)
    | w => Except.ok (if jsTruthy w then w else Json.obj [])
  | ToolArgs.undef => Except.ok (Json.obj [])

/-- The registered tool names (`boundTools`). -/
def knownTools : List String :=
  ["h", "updateElement", "setText", "appendText", "removeElement"]

/-- `parsedArgs.props || {}`. -/
def propsArg (pargs : Json) : Json :=
  match getField pargs "props" with
  | some v => if jsTruthy v then v else Json.obj []
  | none => Json.obj []

/-- `parsedArgs.text || ''`. -/
def textArg (pargs : Json) : Json :=
  match getField pargs "text" with
  | some v => if jsTruthy v then v else Json.str ""
  | none => Json.str ""

/-- `ToolCallHandler.executeToolCall(toolCall)`: throws (`Except.error`)
on an unknown or missing name, on string arguments that are not valid
JSON, and on whatever the routed tool function throws; otherwise returns
the tool's result and the updated store. -/
def executeToolCall (s : Store) (tc : ToolCall) :
    Except String (Json × Store) :=
  if tc.name = "" ∨ ¬ knownTools.contains tc.name then
    Except.error ("Unknown tool: " ++ tc.name)
  else
    match parseToolArgs tc.args with
    | Except.error e => Except.error e
    | Except.ok pargs =>
      if tc.name = "h" then
        toolH s (getField pargs "parentId") (getField pargs "tagName")
          (propsArg pargs)
      else if tc.name = "updateElement" then
        toolUpdateElement s (getField pargs "elementId") (propsArg pargs)
      else if tc.name = "setText" then
        toolSetText s (getField pargs "elementId") (textArg pargs)
      else if tc.name = "appendText" then
        toolAppendText s (getField pargs "elementId") (textArg pargs)
      else
        toolRemoveElement s (getField pargs "elementId")

/-- One entry of the result list of `executeToolCalls`. -/
structure ToolResult where
  success : Bool
  result : Option Json
  errMsg : Option String
  toolCall : ToolCall

/-- `ToolCallHandler.executeToolCalls(toolCalls)`: runs the instructions
in order, collecting `{success: true, result, toolCall}` or
`{success: false, error, toolCall}` per instruction; an exception from one
instruction is captured and the batch continues with the store as the
failed instruction left it. -/
def executeToolCalls (s : Store) : List ToolCall → List ToolResult × Store
  | [] => ([], s)
  | tc :: rest =>
    match executeToolCall s tc with
    | Except.ok (r, s2) =>
      let (rs, sf) := executeToolCalls s2 rest
      let entry : ToolResult :=
        { success := true, result := some r, errMsg := none, toolCall := tc }
      (entry :: rs, sf)
    | Except.error e =>
      let (rs, sf) := executeToolCalls s rest
      let entry : ToolResult :=
        { success := false, result := none, errMsg := some e, toolCall := tc }
      (entry :: rs, sf)

/-! ## Streaming assembler A: `IncrementalCommandParser`

Model of the structured-delta feed (`choices[].delta.tool_calls`): slots
keyed by stream index, a pending buffer, and the retired-key set. -/

/-- One `delta.tool_calls` fragment. -/
structure DeltaToolCall where
  index : Nat
  id : Option String
  name : Option String
  args : Option String

/-- A pending record of `toolCallBuffer`. -/
structure BufEntry where
  id : Option String
  name : String
  args : String
  index : Nat
deriving Repr, DecidableEq

/-- `toolCallBuffer` and `completedToolCalls`. -/
structure CmdParserState where
  buffer : List (String × BufEntry)
  completed : List String
deriving Repr, DecidableEq

/-- JS whitespace the model trims (`String.prototype.trim`). -/
def isTrimWs (c : Char) : Bool :=
  c = ' ' || c = '\t' || c = '\n' || c = '\r' || c = '\x0b' || c = '\x0c'

def jsTrim (s : String) : String :=
  String.mk (((s.data.dropWhile isTrimWs).reverse.dropWhile isTrimWs).reverse)

/-- The slot key of a fragment: `index_${toolCallIndex}`. -/
def slotKeyOf (idx : Nat) : String := "index_" ++ toString idx

/-- A fully-formed instruction emitted by the assembler. -/
structure EmittedCall where
  id : String
  name : String
  args : String
  index : Nat
deriving Repr, DecidableEq

/-- The pending record created on the first delta for a slot
(`id: deltaToolCall.id || undefined`, empty name and payload). -/
def initialEntry (d : DeltaToolCall) : BufEntry :=
  { id := match d.id with
      | some i => if i = "" then none else some i
      | none => none
    name := "", args := "", index := d.index }

/-- One delta applied to a pending record: take the id if not yet set,
the name by last truthy write, the payload by appending a truthy
fragment. -/
def applyDelta (e : BufEntry) (d : DeltaToolCall) : BufEntry :=
  let e1 :=
    match d.id with
    | some i => if i ≠ "" ∧ e.id = none then { e with id := some i } else e
    | none => e
  let e2 :=
    match d.name with
    | some n => if n ≠ "" then { e1 with name := n } else e1
    | none => e1
  match d.args with
  | some a => if a ≠ "" then { e2 with args := e2.args ++ a } else e2
  | none => e2

/-- The completeness test of `parseChunk`: a non-empty name, a non-blank
payload, and a payload that parses as JSON. -/
def deltaComplete (e : BufEntry) : Bool :=
  e.name ≠ "" && e.args ≠ "" && jsTrim e.args ≠ "" && (jsonParse e.args).isSome

/-- Processing of one delta fragment (the `delta.tool_calls` loop body of
`parseChunk`): skip if retired; get-or-create the pending record; apply
the delta; emit and retire when complete, else file the updated record. -/
def processDelta (st : CmdParserState) (d : DeltaToolCall) :
    CmdParserState × Option EmittedCall :=
  let key := slotKeyOf d.index
  if st.completed.contains key then (st, none)
  else
    let entry0 :=
      match getEntry st.buffer key with
      | some e => e
      | none => initialEntry d
    let entry3 := applyDelta entry0 d
    if deltaComplete entry3 then
      ({ buffer := eraseEntry st.buffer key, completed := st.completed ++ [key] },
       some { id := entry3.id.getD ("temp_" ++ toString d.index)
              name := entry3.name, args := entry3.args, index := entry3.index })
    else
      ({ st with buffer := setEntry st.buffer key entry3 }, none)

/-- The fragments of one or more chunks, processed in arrival order;
returns the emitted instructions in emission order. -/
def processDeltas (st : CmdParserState) :
    List DeltaToolCall → CmdParserState × List EmittedCall
  | [] => (st, [])
  | d :: rest =>
    let (st1, em) := processDelta st d
    let (st2, ems) := processDeltas st1 rest
    (st2, em.toList ++ ems)

/-! ## Streaming assembler B: `IncrementalTextParser`

Model of the free-text feed: an append-only buffer scanned for fenced
code blocks. -/

/-- The backtick character (written by code so that no literal backtick
appears in this file). -/
def btick : Char := Char.ofNat 96

/-- The fence marker, three backticks. -/
def fenceMark : List Char := [btick, btick, btick]

def startsWithList : List Char → List Char → Bool
  | _, [] => true
  | [], _ :: _ => false
  | c :: cs, p :: ps => c = p && startsWithList cs ps

/-- `String.indexOf`: first position where the pattern starts. -/
def indexOfList : List Char → List Char → Option Nat
  | [], pat => if pat = [] then some 0 else none
  | c :: cs, pat =>
    if startsWithList (c :: cs) pat then some 0
    else (indexOfList cs pat).map (· + 1)

/-- A regex `\w` character. -/
def isWordChar (c : Char) : Bool :=
  ('a' ≤ c ∧ c ≤ 'z') || ('A' ≤ c ∧ c ≤ 'Z') || ('0' ≤ c ∧ c ≤ '9') || c = '_'

def toLowerAscii (c : Char) : Char :=
  if 'A' ≤ c ∧ c ≤ 'Z' then Char.ofNat (c.toNat + 32) else c

/-- `split('\n')`, keeping empty segments. -/
def splitOnNl : List Char → List (List Char)
  | [] => [[]]
  | c :: rest =>
    if c = '\n' then [] :: splitOnNl rest
    else
      match splitOnNl rest with
      | l :: ls => (c :: l) :: ls
      | [] => [[c]]

/-- `isValidCommand`: a JSON object (arrays pass the `typeof` test but
have no `name` property) with a non-empty string `name` and a truthy
`arguments`. -/
def isValidCommand (c : Json) : Bool :=
  match c with
  | Json.obj _ =>
    (match getField c "name" with
     | some (Json.str n) => n ≠ ""
     | _ => false) &&
    (match getField c "arguments" with
     | some v => jsTruthy v
     | none => false)
  | _ => false

/-- Language tags eligible for instruction extraction. -/
def allowedLang (language : String) : Bool :=
  language = "render" || language = "json" || language = "javascript"
    || language = "js"

/-- `parseCodeBlock(codeContent, language)`: JSON array of commands, a
single JSON object, or newline-separated JSON objects; invalid elements
and unparsable lines are dropped, a parse failure of the whole block
yields nothing. -/
def parseCodeBlock (codeContent : String) (language : String) : List Json :=
  if ¬ allowedLang language then []
  else
    let t := jsTrim codeContent
    if t.data.head? = some '[' then
      match jsonParse codeContent with
      | some (Json.arr items) => items.filter isValidCommand
      | _ => []
    else if t.data.head? = some '{' then
      match jsonParse codeContent with
      | some v => if isValidCommand v then [v] else []
      | none => []
    else
      let lines := (splitOnNl codeContent.data).map String.mk
      (lines.filter (fun l => jsTrim l ≠ "")).foldl
        (fun acc l =>
          match jsonParse (jsTrim l) with
          | some v => if isValidCommand v then acc ++ [v] else acc
          | none => acc) []

/-- Parser state: the text buffer, the remembered start offset of an
unclosed block, and its language tag. -/
structure TextState where
  textBuffer : List Char
  currentStart : Option Nat
  currentLanguage : Option String

/-- The `while (true)` scan of `parseTextChunk`: find an opening fence;
without a closing fence remember the block start and language and stop;
with one, extract the fenced content (language tag per the
`^\x60\x60\x60(\w+)?\n?` match, trimmed body), parse it, splice the block
out of the buffer and continue.  The fuel is the buffer length: each
completed block removes at least its two fences. -/
def ptcLoop : Nat → List Char → Option Nat → Option String → List Json →
    List Char × Option Nat × Option String × List Json
  | 0, buf, cur, lang, acc => (buf, cur, lang, acc)
  | fuel + 1, buf, cur, lang, acc =>
    match indexOfList buf fenceMark with
    | none => (buf, cur, lang, acc)
    | some start =>
      let afterStart := buf.drop (start + 3)
      match indexOfList afterStart fenceMark with
      | none =>
        let language := String.mk ((afterStart.takeWhile isWordChar).map toLowerAscii)
        match cur with
        | some si =>
          if si = start then (buf, cur, lang, acc)
          else (buf, some start, some language, acc)
        | none => (buf, some start, some language, acc)
      | some endRel =>
        let fullLen := 3 + endRel + 3
        let fullBlock := (buf.drop start).take fullLen
        let langChars := (fullBlock.drop 3).takeWhile isWordChar
        let language := String.mk (langChars.map toLowerAscii)
        let matchLen := 3 + langChars.length +
          (if (fullBlock.drop (3 + langChars.length)).head? = some '\n' then 1
           else 0)
        let codeContent :=
          jsTrim (String.mk ((fullBlock.take (fullLen - 3)).drop matchLen))
        let cmds := parseCodeBlock codeContent language
        let newBuf := buf.take start ++ buf.drop (start + fullLen)
        ptcLoop fuel newBuf none none (acc ++ cmds)

/-- `IncrementalTextParser.parseTextChunk(textChunk)`: append the chunk to
the buffer and scan. -/
def parseTextChunk (st : TextState) (chunk : String) :
    TextState × List Json :=
  let buf := st.textBuffer ++ chunk.data
  let r := ptcLoop (buf.length + 1) buf st.currentStart st.currentLanguage []
  (⟨r.1, r.2.1, r.2.2.1⟩, r.2.2.2)

/-- A fresh `IncrementalTextParser`. -/
def initTextState : TextState :=
  { textBuffer := [], currentStart := none, currentLanguage := none }

/-- A fresh `IncrementalCommandParser`. -/
def initCmdState : CmdParserState :=
  { buffer := [], completed := [] }

/-- A fresh `DOMManager` over an empty root. -/
def initStore : Store :=
  { elems := [], idCounter := 0 }

/-! ## Derived notions used by the claims -/

/-- `OptHolds o P`: the option holds a value satisfying `P`. -/
def OptHolds {α : Type} (o : Option α) (P : α → Prop) : Prop :=
  match o with
  | some a => P a
  | none => False

instance {α : Type} (o : Option α) (P : α → Prop) [inst : ∀ a, Decidable (P a)] :
    Decidable (OptHolds o P) :=
  match o with
  | some a => inst a
  | none => isFalse (fun h => h)

/-- `OptAll o P`: the option is empty or holds a value satisfying `P`. -/
def OptAll {α : Type} (o : Option α) (P : α → Prop) : Prop :=
  match o with
  | some a => P a
  | none => True

instance {α : Type} (o : Option α) (P : α → Prop) [inst : ∀ a, Decidable (P a)] :
    Decidable (OptAll o P) :=
  match o with
  | some a => inst a
  | none => isTrue trivial

/-- The parent-reference chain of `y` reaches `x` within `f` steps.  A
stored `parentId` of `root` is the top-level sentinel, not a reference
(`getParentNode` resolves it to the root container before consulting the
map), so a chain never steps through it. -/
def reachB : Nat → Store → String → String → Bool
  | 0, _, y, x => y == x
  | f + 1, s, y, x =>
    y == x ||
      (match getEntry s.elems y with
       | some i => if i.parentId = "root" then false else reachB f s i.parentId x
       | none => false)

/-- Well-formedness of a store, as the `DOMManager` maintains it on the
states it builds: keys are distinct, child sets are duplicate-free,
stored parent ids are non-empty (`parentId || 'root'`), a non-root parent
is live and lists the node in its child set, every child-set entry is a
live node pointing back, and a node keyed `root` (only creatable by an
explicit `props.id`) has no children, since the child-attachment step
always skips the `root` key. -/
def StoreOk (s : Store) : Prop :=
  (s.elems.map Prod.fst).Nodup ∧
  (∀ e ∈ s.elems, e.2.children.Nodup) ∧
  (∀ e ∈ s.elems, e.2.parentId ≠ "") ∧
  (∀ e ∈ s.elems, e.2.parentId ≠ "root" →
    OptHolds (getEntry s.elems e.2.parentId) (fun pi => e.1 ∈ pi.children)) ∧
  (∀ e ∈ s.elems, ∀ c ∈ e.2.children,
    OptHolds (getEntry s.elems c) (fun ci => ci.parentId = e.1)) ∧
  OptAll (getEntry s.elems "root") (fun i => i.children = [])

/-- The result envelope `executeToolCalls` records for one instruction. -/
def envelopeOf (tc : ToolCall) : Except String (Json × Store) → ToolResult
  | Except.ok (r, _) =>
    { success := true, result := some r, errMsg := none, toolCall := tc }
  | Except.error e =>
    { success := false, result := none, errMsg := some e, toolCall := tc }

/-- A `tagName` argument the `h` tool rejects: absent, empty, or not a
string. -/
def BadTagName (o : Option Json) : Prop :=
  match o with
  | some (Json.str t) => t = ""
  | some _ => True
  | none => True

/-- A `text` argument field that is absent or JS-falsy. -/
def FalsyText (o : Option Json) : Prop :=
  match o with
  | some v => jsTruthy v = false
  | none => True

/-! ## Concrete inputs used by witnesses and counterexamples -/

/-- A well-formed store: `a` under the root with child `b`, and an
unrelated top-level `d`. -/
def wStore : Store :=
  { elems := [("a", { parentId := "root", children := ["b"], textContent := "" }),
              ("b", { parentId := "a", children := [], textContent := "x" }),
              ("d", { parentId := "root", children := [], textContent := "" })]
    idCounter := 0 }

/-- A valid creation instruction (string-encoded arguments). -/
def wCreate : ToolCall :=
  { name := "h"
    args := ToolArgs.str
      "\x7b\"parentId\":null,\"tagName\":\"div\",\"props\":\x7b\"id\":\"box\"\x7d\x7d" }

/-- A malformed instruction: its string arguments are not valid JSON. -/
def wMalformed : ToolCall :=
  { name := "h", args := ToolArgs.str "\x7boops" }

/-- A valid text instruction addressing the element `wCreate` makes. -/
def wSetText : ToolCall :=
  { name := "setText"
    args := ToolArgs.str "\x7b\"elementId\":\"box\",\"text\":\"hi\"\x7d" }

/-- First half of a fenced block split across two text chunks. -/
def wChunk1 : String := "```render\n[\x7b\"name\":\"create\",\"arguments\":\x7b"

/-- Second half of the split fenced block. -/
def wChunk2 : String := "\"parentId\":null,\"label\":\"div\"\x7d\x7d]\n```"

/-- The single instruction carried by the split block. -/
def wSplitCmd : Json :=
  Json.obj [("name", Json.str "create"),
            ("arguments", Json.obj [("parentId", Json.null),
                                    ("label", Json.str "div")])]

/-- A first delta fragment for slot 0: name plus half a JSON payload. -/
def wDelta1 : DeltaToolCall :=
  { index := 0, id := some "call_1", name := some "setText"
    args := some "\x7b\"elementId\":" }

/-- The completing delta fragment for slot 0. -/
def wDelta2 : DeltaToolCall :=
  { index := 0, id := none, name := none
    args := some "\"a\",\"text\":\"x\"\x7d" }

/-- The instruction the two fragments assemble to. -/
def wEmitted : EmittedCall :=
  { id := "call_1", name := "setText"
    args := "\x7b\"elementId\":\"a\",\"text\":\"x\"\x7d", index := 0 }

/-- Distinct keys in the element map. -/
def NodupKeys (s : Store) : Prop := (s.elems.map Prod.fst).Nodup

/-- Duplicate-free child sets. -/
def ChOk (s : Store) : Prop := ∀ e ∈ s.elems, e.2.children.Nodup

/-- The slice of `StoreOk` that the removal lemmas carry through every
intermediate state. -/
def GoodStore (s : Store) : Prop := NodupKeys s ∧ ChOk s

/-- `s2` keeps only entries of `s1`: a surviving entry keeps its parent id
and text and loses at most child-set members. -/
def Shrinks (s2 s1 : Store) : Prop :=
  ∀ y i, getEntry s2.elems y = some i →
    ∃ i0, getEntry s1.elems y = some i0 ∧ i.parentId = i0.parentId ∧
      i.textContent = i0.textContent ∧ ∀ c ∈ i.children, c ∈ i0.children

/-- Pending records of the command parser are filed under the slot key of
their own index. -/
def BufKeyed (st : CmdParserState) : Prop :=
  ∀ e ∈ st.buffer, e.1 = slotKeyOf e.2.index

/-- A one-element store (`a` under the root), for the id-reuse corner. -/
def cexSelfStore : Store :=
  { elems := [("a", { parentId := "root", children := [], textContent := "" })]
    idCounter := 0 }

/-- Build of the rename counterexample: `p` under the root, `c` under `p`
(both through `createElement`). -/
def cexRenameStore : Store :=
  (createElement (createElement initStore "root" "div"
      { id := some (Json.str "p"), textContent := none }).2
    "p" "div" { id := some (Json.str "c"), textContent := none }).2

/-- The state after renaming `p` to `q` in `cexRenameStore` (the value the
rename counterexample exhibits). -/
def cexRenamed : Store :=
  { elems := [("c", { parentId := "p", children := [], textContent := "" }),
              ("q", { parentId := "root", children := ["c"], textContent := "" })]
    idCounter := 0 }

/-- The state the rename branch of `updateElement` produces once the
no-op `setProps` write is folded away: re-key under the new id, drop the
old key, then swap the ids in the parent's child set. -/
def detachRename (s : Store) (oldId newId : String) (info : ElemInfo) : Store :=
  let s3 : Store := { s with elems := eraseEntry (setEntry s.elems newId info) oldId }
  if info.parentId ≠ "" ∧ info.parentId ≠ "root" then
    match getEntry s3.elems info.parentId with
    | some pinfo =>
      let ch2 := addChild (pinfo.children.erase oldId) newId
      let pinfo2 := { pinfo with children := ch2 }
      { s3 with elems := setEntry s3.elems info.parentId pinfo2 }
    | none => s3
  else s3

/-- The node record `createElement` installs for a fresh element with no
`textContent` prop. -/
def freshInfo (p : String) : ElemInfo :=
  { parentId := if p = "" then "root" else p, children := [], textContent := "" }

/-- The installation step of `createElement`: write the fresh record under
the chosen id. -/
def installStep (s1 : Store) (p X : String) : Store :=
  { s1 with elems := setEntry s1.elems X (freshInfo p) }

/-- The child-attachment step of `createElement`: append the new id to the
parent's child set when the parent is a live non-root key. -/
def attachStep (s2 : Store) (p X : String) : Store :=
  if p ≠ "" ∧ p ≠ "root" then
    match getEntry s2.elems p with
    | some pinfo =>
      let pinfo2 := { pinfo with children := addChild pinfo.children X }
      { s2 with elems := setEntry s2.elems p pinfo2 }
    | none => s2
  else s2

/-- The detach-from-parent step of `removeElement` (performed after the
recursive child removal, on the entry captured at entry). -/
def detachStep (s1 : Store) (x : String) (info : ElemInfo) : Store :=
  if info.parentId ≠ "" ∧ info.parentId ≠ "root" then
    match getEntry s1.elems info.parentId with
    | some pinfo =>
      let pinfo2 := { pinfo with children := pinfo.children.erase x }
      { s1 with elems := setEntry s1.elems info.parentId pinfo2 }
    | none => s1
  else s1

/-- The recursive child-removal fold of `removeElement`. -/
def foldRemove (fuel : Nat) (cs : List String) (s : Store) : Store :=
  cs.foldl (fun acc c => removeElementFuel fuel acc c) s

/-- The final map deletion of `removeElement`. -/
def eraseStep (s : Store) (x : String) : Store :=
  { s with elems := eraseEntry s.elems x }

instance (s : Store) : Decidable (StoreOk s) := by
  unfold StoreOk
  infer_instance

instance (s : Store) : Decidable (NodupKeys s) := by
  unfold NodupKeys
  infer_instance

instance (s : Store) : Decidable (GoodStore s) := by
  unfold GoodStore NodupKeys ChOk
  infer_instance

/-! ## Association-list lemmas -/

theorem getEntry_mem {α : Type} {l : List (String × α)} {k : String} {v : α}
    (h : getEntry l k = some v) : (k, v) ∈ l := by
  induction l with
  | nil => simp [getEntry] at h
  | cons e rest ih =>
    obtain ⟨k', v'⟩ := e
    by_cases hk : k' = k
    · subst hk
      simp [getEntry] at h
      simp [h]
    · simp [getEntry, hk] at h
      exact List.mem_cons_of_mem _ (ih h)

theorem getEntry_none_of_not_mem {α : Type} {l : List (String × α)} {k : String}
    (h : k ∉ l.map Prod.fst) : getEntry l k = none := by
  induction l with
  | nil => simp [getEntry]
  | cons e rest ih =>
    simp only [List.map_cons, List.mem_cons, not_or] at h
    simp [getEntry, Ne.symm h.1, ih h.2]

theorem mem_keys_of_getEntry {α : Type} {l : List (String × α)} {k : String} {v : α}
    (h : getEntry l k = some v) : k ∈ l.map Prod.fst := by
  have := getEntry_mem h
  exact List.mem_map_of_mem Prod.fst this

theorem getEntry_setEntry_self {α : Type} (l : List (String × α)) (k : String) (v : α) :
    getEntry (setEntry l k v) k = some v := by
  induction l with
  | nil => simp [setEntry, getEntry]
  | cons e rest ih =>
    obtain ⟨k', v'⟩ := e
    by_cases hk : k' = k
    · simp [setEntry, hk, getEntry]
    · simp [setEntry, hk, getEntry, ih]

theorem getEntry_setEntry_ne {α : Type} (l : List (String × α)) (k k2 : String) (v : α)
    (h : k2 ≠ k) : getEntry (setEntry l k v) k2 = getEntry l k2 := by
  induction l with
  | nil => simp [setEntry, getEntry, Ne.symm h]
  | cons e rest ih =>
    obtain ⟨k', v'⟩ := e
    by_cases hk : k' = k
    · subst hk
      simp [setEntry, getEntry, Ne.symm h]
    · by_cases hk2 : k' = k2
      · subst hk2
        simp [setEntry, hk, getEntry]
      · simp [setEntry, hk, getEntry, hk2, ih]

theorem getEntry_eraseEntry_self {α : Type} {l : List (String × α)} {k : String}
    (h : (l.map Prod.fst).Nodup) : getEntry (eraseEntry l k) k = none := by
  induction l with
  | nil => simp [eraseEntry, getEntry]
  | cons e rest ih =>
    obtain ⟨k', v'⟩ := e
    simp only [List.map_cons, List.nodup_cons] at h
    by_cases hk : k' = k
    · subst hk
      simp only [eraseEntry, if_pos rfl]
      exact getEntry_none_of_not_mem h.1
    · simp [eraseEntry, hk, getEntry, ih h.2]

theorem getEntry_eraseEntry_ne {α : Type} (l : List (String × α)) (k k2 : String)
    (h : k2 ≠ k) : getEntry (eraseEntry l k) k2 = getEntry l k2 := by
  induction l with
  | nil => simp [eraseEntry, getEntry]
  | cons e rest ih =>
    obtain ⟨k', v'⟩ := e
    by_cases hk : k' = k
    · subst hk
      simp [eraseEntry, getEntry, Ne.symm h]
    · by_cases hk2 : k' = k2
      · subst hk2
        simp [eraseEntry, hk, getEntry]
      · simp [eraseEntry, hk, getEntry, hk2, ih]

theorem keys_setEntry_of_mem {α : Type} {l : List (String × α)} {k : String} (v : α)
    (h : k ∈ l.map Prod.fst) : (setEntry l k v).map Prod.fst = l.map Prod.fst := by
  induction l with
  | nil => simp at h
  | cons e rest ih =>
    obtain ⟨k', v'⟩ := e
    by_cases hk : k' = k
    · simp [setEntry, hk]
    · simp only [List.map_cons, List.mem_cons] at h
      rcases h with h | h
      · exact absurd h.symm hk
      · simp [setEntry, hk, ih h]

theorem keys_setEntry_of_not_mem {α : Type} {l : List (String × α)} {k : String} (v : α)
    (h : k ∉ l.map Prod.fst) : (setEntry l k v).map Prod.fst = l.map Prod.fst ++ [k] := by
  induction l with
  | nil => simp [setEntry]
  | cons e rest ih =>
    obtain ⟨k', v'⟩ := e
    simp only [List.map_cons, List.mem_cons, not_or] at h
    simp [setEntry, Ne.symm h.1, ih h.2]

theorem nodup_keys_setEntry {α : Type} {l : List (String × α)} (k : String) (v : α)
    (h : (l.map Prod.fst).Nodup) : ((setEntry l k v).map Prod.fst).Nodup := by
  by_cases hm : k ∈ l.map Prod.fst
  · rw [keys_setEntry_of_mem v hm]; exact h
  · rw [keys_setEntry_of_not_mem v hm]
    simp [List.nodup_append, h, hm]

theorem keys_eraseEntry_sublist {α : Type} (l : List (String × α)) (k : String) :
    ((eraseEntry l k).map Prod.fst).Sublist (l.map Prod.fst) := by
  induction l with
  | nil => simp [eraseEntry]
  | cons e rest ih =>
    obtain ⟨k', v'⟩ := e
    by_cases hk : k' = k
    · simp only [eraseEntry, if_pos hk, List.map_cons]
      exact List.sublist_cons_self _ _
    · simp only [eraseEntry, if_neg hk, List.map_cons]
      exact ih.cons₂ k'

theorem nodup_keys_eraseEntry {α : Type} {l : List (String × α)} (k : String)
    (h : (l.map Prod.fst).Nodup) : ((eraseEntry l k).map Prod.fst).Nodup :=
  (keys_eraseEntry_sublist l k).nodup h

theorem mem_setEntry {α : Type} {l : List (String × α)} {k : String} {v : α} {e : String × α}
    (h : e ∈ setEntry l k v) : e ∈ l ∨ e = (k, v) := by
  induction l with
  | nil => simp [setEntry] at h; exact Or.inr h
  | cons e0 rest ih =>
    obtain ⟨k', v'⟩ := e0
    by_cases hk : k' = k
    · simp only [setEntry, if_pos hk, List.mem_cons] at h
      rcases h with h | h
      · exact Or.inr h
      · exact Or.inl (List.mem_cons_of_mem _ h)
    · simp only [setEntry, if_neg hk, List.mem_cons] at h
      rcases h with h | h
      · exact Or.inl (by simp [h])
      · rcases ih h with h2 | h2
        · exact Or.inl (List.mem_cons_of_mem _ h2)
        · exact Or.inr h2

theorem mem_eraseEntry {α : Type} {l : List (String × α)} {k : String} {e : String × α}
    (h : e ∈ eraseEntry l k) : e ∈ l := by
  induction l with
  | nil => simp [eraseEntry] at h
  | cons e0 rest ih =>
    obtain ⟨k', v'⟩ := e0
    by_cases hk : k' = k
    · simp only [eraseEntry, if_pos hk] at h
      exact List.mem_cons_of_mem _ h
    · simp only [eraseEntry, if_neg hk, List.mem_cons] at h
      rcases h with h | h
      · simp [h]
      · exact List.mem_cons_of_mem _ (ih h)

theorem setEntry_eq_of_getEntry {α : Type} {l : List (String × α)} {k : String} {v : α}
    (h : getEntry l k = some v) : setEntry l k v = l := by
  induction l with
  | nil => simp [getEntry] at h
  | cons e rest ih =>
    obtain ⟨k', v'⟩ := e
    by_cases hk : k' = k
    · subst hk
      simp [getEntry] at h
      simp [setEntry, h]
    · simp only [getEntry, if_neg hk] at h
      simp [setEntry, hk, ih h]

theorem setEntry_setEntry {α : Type} (l : List (String × α)) (k : String) (v v2 : α) :
    setEntry (setEntry l k v) k v2 = setEntry l k v2 := by
  induction l with
  | nil => simp [setEntry]
  | cons e rest ih =>
    obtain ⟨k', v'⟩ := e
    by_cases hk : k' = k
    · simp [setEntry, hk]
    · simp [setEntry, hk, ih]

/-! ## Removal lemmas -/

theorem rF_succ_none {s : Store} {x : String} (fuel : Nat)
    (h : getEntry s.elems x = none) : removeElementFuel (fuel + 1) s x = s := by
  simp [removeElementFuel, h]

theorem rF_decomp {fuel : Nat} {s : Store} {x : String} {info : ElemInfo}
    (h : getEntry s.elems x = some info) :
    removeElementFuel (fuel + 1) s x =
      eraseStep (detachStep (foldRemove fuel info.children s) x info) x := by
  simp [removeElementFuel, h, eraseStep, detachStep, foldRemove]

theorem shrinks_refl (s : Store) : Shrinks s s := by
  intro y i h
  exact ⟨i, h, rfl, rfl, fun c hc => hc⟩

theorem shrinks_trans {s3 s2 s1 : Store} (h32 : Shrinks s3 s2)
    (h21 : Shrinks s2 s1) : Shrinks s3 s1 := by
  intro y i h
  obtain ⟨i2, h2, hp2, ht2, hc2⟩ := h32 y i h
  obtain ⟨i1, h1, hp1, ht1, hc1⟩ := h21 y i2 h2
  exact ⟨i1, h1, hp2.trans hp1, ht2.trans ht1, fun c hc => hc1 c (hc2 c hc)⟩

theorem getEntry_eraseEntry_some {α : Type} {l : List (String × α)} {k y : String}
    {v : α} (hn : (l.map Prod.fst).Nodup) (h : getEntry (eraseEntry l k) y = some v) :
    getEntry l y = some v := by
  by_cases hy : y = k
  · subst hy
    rw [getEntry_eraseEntry_self hn] at h
    cases h
  · rwa [getEntry_eraseEntry_ne _ _ _ hy] at h

theorem goodStore_detachStep {s1 : Store} {x : String} {info : ElemInfo}
    (hg : GoodStore s1) : GoodStore (detachStep s1 x info) := by
  obtain ⟨hn, hc⟩ := hg
  unfold detachStep
  split
  · cases hpe : getEntry s1.elems info.parentId with
    | none => exact ⟨hn, hc⟩
    | some pinfo =>
      refine ⟨nodup_keys_setEntry _ _ hn, ?_⟩
      intro e he
      rcases mem_setEntry he with h | h
      · exact hc e h
      · subst h
        exact ((hc _ (getEntry_mem hpe)).erase x)
  · exact ⟨hn, hc⟩

theorem shrinks_detachStep (s1 : Store) (x : String) (info : ElemInfo) :
    Shrinks (detachStep s1 x info) s1 := by
  unfold detachStep
  split
  · cases hpe : getEntry s1.elems info.parentId with
    | none => exact shrinks_refl s1
    | some pinfo =>
      intro y i h
      by_cases hy : y = info.parentId
      · subst hy
        rw [getEntry_setEntry_self] at h
        cases h
        exact ⟨pinfo, hpe, rfl, rfl, fun c hc => List.erase_subset _ _ hc⟩
      · rw [getEntry_setEntry_ne _ _ _ _ hy] at h
        exact ⟨i, h, rfl, rfl, fun c hc => hc⟩
  · exact shrinks_refl s1

theorem goodStore_eraseStep {s : Store} (x : String) (hg : GoodStore s) :
    GoodStore (eraseStep s x) := by
  obtain ⟨hn, hc⟩ := hg
  exact ⟨nodup_keys_eraseEntry x hn, fun e he => hc e (mem_eraseEntry he)⟩

theorem shrinks_eraseStep {s : Store} (x : String) (hn : NodupKeys s) :
    Shrinks (eraseStep s x) s := by
  intro y i h
  exact ⟨i, getEntry_eraseEntry_some hn h, rfl, rfl, fun c hc => hc⟩

theorem rF_good_shrinks :
    ∀ (fuel : Nat) (s : Store) (x : String), GoodStore s →
      GoodStore (removeElementFuel fuel s x) ∧
        Shrinks (removeElementFuel fuel s x) s := by
  intro fuel
  induction fuel with
  | zero => intro s x hg; exact ⟨hg, shrinks_refl s⟩
  | succ fuel ih =>
    intro s x hg
    cases h : getEntry s.elems x with
    | none => rw [rF_succ_none fuel h]; exact ⟨hg, shrinks_refl s⟩
    | some info =>
      rw [rF_decomp h]
      have hfold : ∀ (cs : List String) (s0 : Store), GoodStore s0 →
          GoodStore (foldRemove fuel cs s0) ∧ Shrinks (foldRemove fuel cs s0) s0 := by
        intro cs
        induction cs with
        | nil => intro s0 hg0; exact ⟨hg0, shrinks_refl s0⟩
        | cons c rest ihc =>
          intro s0 hg0
          have hstep := ih s0 c hg0
          have hrest := ihc (removeElementFuel fuel s0 c) hstep.1
          have : foldRemove fuel (c :: rest) s0 =
              foldRemove fuel rest (removeElementFuel fuel s0 c) := by
            simp [foldRemove]
          rw [this]
          exact ⟨hrest.1, shrinks_trans hrest.2 hstep.2⟩
      obtain ⟨hg1, hs1⟩ := hfold info.children s hg
      have hg2 := @goodStore_detachStep _ x info hg1
      have hs2 := shrinks_detachStep (foldRemove fuel info.children s) x info
      have hg3 := goodStore_eraseStep x hg2
      have hs3 := shrinks_eraseStep x hg2.1
      exact ⟨hg3, shrinks_trans hs3 (shrinks_trans hs2 hs1)⟩

theorem foldRemove_good_shrinks (fuel : Nat) (cs : List String) (s : Store)
    (hg : GoodStore s) :
    GoodStore (foldRemove fuel cs s) ∧ Shrinks (foldRemove fuel cs s) s := by
  induction cs generalizing s with
  | nil => exact ⟨hg, shrinks_refl s⟩
  | cons c rest ihc =>
    have hstep := rF_good_shrinks fuel s c hg
    have hrest := ihc (removeElementFuel fuel s c) hstep.1
    have : foldRemove fuel (c :: rest) s =
        foldRemove fuel rest (removeElementFuel fuel s c) := by
      simp [foldRemove]
    rw [this]
    exact ⟨hrest.1, shrinks_trans hrest.2 hstep.2⟩

theorem rF_dead_stay {fuel : Nat} {s : Store} {x y : String} (hg : GoodStore s)
    (h : getEntry s.elems y = none) :
    getEntry (removeElementFuel fuel s x).elems y = none := by
  cases hres : getEntry (removeElementFuel fuel s x).elems y with
  | none => rfl
  | some i =>
    obtain ⟨i0, h0, -, -, -⟩ := (rF_good_shrinks fuel s x hg).2 y i hres
    rw [h] at h0
    cases h0

theorem foldRemove_dead_stay {fuel : Nat} {cs : List String} {s : Store} {y : String}
    (hg : GoodStore s) (h : getEntry s.elems y = none) :
    getEntry (foldRemove fuel cs s).elems y = none := by
  cases hres : getEntry (foldRemove fuel cs s).elems y with
  | none => rfl
  | some i =>
    obtain ⟨i0, h0, -, -, -⟩ := (foldRemove_good_shrinks fuel cs s hg).2 y i hres
    rw [h] at h0
    cases h0

theorem rF_kill {fuel : Nat} {s : Store} {x : String} (hg : GoodStore s) :
    getEntry (removeElementFuel (fuel + 1) s x).elems x = none := by
  cases h : getEntry s.elems x with
  | none => rw [rF_succ_none fuel h]; exact h
  | some info =>
    rw [rF_decomp h]
    have hg1 := (foldRemove_good_shrinks fuel info.children s hg).1
    have hg2 := @goodStore_detachStep _ x info hg1
    exact getEntry_eraseEntry_self hg2.1

theorem foldRemove_all_dead {fuel : Nat} {cs : List String} {s : Store}
    (hg : GoodStore s) :
    ∀ c ∈ cs, getEntry (foldRemove (fuel + 1) cs s).elems c = none := by
  induction cs generalizing s with
  | nil => intro c hc; cases hc
  | cons c0 rest ihc =>
    intro c hc
    have hstep : foldRemove (fuel + 1) (c0 :: rest) s =
        foldRemove (fuel + 1) rest (removeElementFuel (fuel + 1) s c0) := by
      simp [foldRemove]
    have hg1 := (rF_good_shrinks (fuel + 1) s c0 hg).1
    rcases List.mem_cons.mp hc with h | h
    · subst h
      rw [hstep]
      exact foldRemove_dead_stay hg1 (rF_kill hg)
    · rw [hstep]
      exact ihc hg1 c h

theorem getEntry_detachStep_dead {s1 : Store} {x c : String} {info : ElemInfo}
    (h : getEntry s1.elems c = none) :
    getEntry (detachStep s1 x info).elems c = none := by
  unfold detachStep
  split
  · cases hpe : getEntry s1.elems info.parentId with
    | none => exact h
    | some pinfo =>
      have hne : c ≠ info.parentId := by
        intro he
        rw [he, hpe] at h
        cases h
      simpa [getEntry_setEntry_ne _ _ _ _ hne] using h
  · exact h

theorem rF_children_dead {fuel : Nat} {s : Store} {x : String} {info : ElemInfo}
    (hg : GoodStore s) (h : getEntry s.elems x = some info) :
    ∀ c ∈ info.children, getEntry (removeElementFuel (fuel + 2) s x).elems c = none := by
  intro c hc
  rw [rF_decomp h]
  have h1 : getEntry (foldRemove (fuel + 1) info.children s).elems c = none :=
    foldRemove_all_dead hg c hc
  have h2 := @getEntry_detachStep_dead _ x _ info h1
  by_cases hcx : c = x
  · subst hcx
    have hg1 := (foldRemove_good_shrinks (fuel + 1) info.children s hg).1
    have hg2 := @goodStore_detachStep _ c info hg1
    exact getEntry_eraseEntry_self hg2.1
  · unfold eraseStep
    simpa [getEntry_eraseEntry_ne _ _ _ hcx] using h2

/-! ## `removeElement` facts -/

theorem removeElement_absent {s : Store} {x : String}
    (h : getEntry s.elems x = none) : removeElement s x = s := by
  unfold removeElement
  exact rF_succ_none _ h

theorem removeElement_good_shrinks {s : Store} (x : String) (hg : GoodStore s) :
    GoodStore (removeElement s x) ∧ Shrinks (removeElement s x) s :=
  rF_good_shrinks _ s x hg

theorem removeElement_kill {s : Store} {x : String} (hg : GoodStore s) :
    getEntry (removeElement s x).elems x = none := by
  unfold removeElement
  exact rF_kill hg

theorem removeElement_children_dead {s : Store} {x : String} {info : ElemInfo}
    (hg : GoodStore s) (h : getEntry s.elems x = some info) :
    ∀ c ∈ info.children, getEntry (removeElement s x).elems c = none := by
  have hlen : s.elems.length + 1 = (s.elems.length - 1) + 2 := by
    have : s.elems ≠ [] := by
      intro he
      rw [he] at h
      cases h
    have hpos : 0 < s.elems.length := List.length_pos.mpr this
    omega
  unfold removeElement
  rw [hlen]
  exact rF_children_dead hg h

theorem removeElement_no_live_child {s : Store} {x : String} {info : ElemInfo}
    (hg : GoodStore s)
    (hplink : ∀ e ∈ s.elems, e.2.parentId ≠ "root" →
      OptHolds (getEntry s.elems e.2.parentId) (fun pi => e.1 ∈ pi.children))
    (hx : getEntry s.elems x = some info) (hxr : x ≠ "root") :
    ∀ z i2, getEntry (removeElement s x).elems z = some i2 → i2.parentId ≠ x := by
  intro z i2 hz hpx
  obtain ⟨i0, h0, hp0, -, -⟩ := (removeElement_good_shrinks x hg).2 z i2 hz
  have hlink := hplink (z, i0) (getEntry_mem h0)
  rw [hp0] at hpx
  rw [hpx] at hlink
  have hlink2 := hlink hxr
  rw [hx] at hlink2
  have hmem : z ∈ info.children := hlink2
  have := removeElement_children_dead hg hx z hmem
  rw [this] at hz
  cases hz

theorem reachB_dead {f : Nat} {s : Store} {z x : String}
    (h : getEntry s.elems z = none) (hne : z ≠ x) : reachB f s z x = false := by
  cases f with
  | zero => simp [reachB, hne]
  | succ f => simp [reachB, hne, h]

theorem removeElement_no_chain {s : Store} {x : String} {info : ElemInfo}
    (hg : GoodStore s)
    (hplink : ∀ e ∈ s.elems, e.2.parentId ≠ "root" →
      OptHolds (getEntry s.elems e.2.parentId) (fun pi => e.1 ∈ pi.children))
    (hx : getEntry s.elems x = some info) :
    ∀ f y i2, getEntry (removeElement s x).elems y = some i2 →
      reachB f (removeElement s x) y x = false := by
  intro f
  induction f with
  | zero =>
    intro y i2 hy
    have hyx : y ≠ x := by
      intro he
      rw [he, removeElement_kill hg] at hy
      cases hy
    simp [reachB, hyx]
  | succ f ihf =>
    intro y i2 hy
    have hyx : y ≠ x := by
      intro he
      rw [he, removeElement_kill hg] at hy
      cases hy
    by_cases hroot : i2.parentId = "root"
    · simp [reachB, hyx, hy, hroot]
    · have hpz : i2.parentId ≠ x := by
        intro he
        have hxr : x ≠ "root" := by
          intro hxe
          rw [hxe] at he
          exact hroot he
        exact removeElement_no_live_child hg hplink hx hxr y i2 hy he
      cases hz : getEntry (removeElement s x).elems i2.parentId with
      | none =>
        simp [reachB, hyx, hy, hroot, reachB_dead hz hpz]
      | some iz =>
        simp [reachB, hyx, hy, hroot, ihf i2.parentId iz hz]

theorem removeElement_detached {s : Store} {x : String} {info : ElemInfo}
    (hg : GoodStore s)
    (hcs : ∀ e ∈ s.elems, ∀ c ∈ e.2.children,
      OptHolds (getEntry s.elems c) (fun ci => ci.parentId = e.1))
    (hroot : OptAll (getEntry s.elems "root") (fun i => i.children = []))
    (hpne : ∀ e ∈ s.elems, e.2.parentId ≠ "")
    (hx : getEntry s.elems x = some info) :
    ∀ p pi, getEntry (removeElement s x).elems p = some pi → x ∉ pi.children := by
  intro p pi hp hxin
  obtain ⟨p0, hp0, -, -, hch⟩ := (removeElement_good_shrinks x hg).2 p pi hp
  have hxin0 : x ∈ p0.children := hch x hxin
  have hback := hcs (p, p0) (getEntry_mem hp0) x hxin0
  rw [hx] at hback
  have hparent : info.parentId = p := hback
  have hproot : p ≠ "root" := by
    intro he
    rw [he] at hp0
    have : p0.children = [] := by
      have := hroot
      rw [hp0] at this
      exact this
    rw [this] at hxin0
    cases hxin0
  have hpne2 : p ≠ "" := by
    have := hpne (x, info) (getEntry_mem hx)
    rw [hparent] at this
    exact this
  have hpx : p ≠ x := by
    intro he
    rw [he, removeElement_kill hg] at hp
    cases hp
  have hlen : s.elems.length + 1 = s.elems.length + 1 := rfl
  -- unfold the removal into its three steps
  have hdec : removeElement s x =
      eraseStep (detachStep (foldRemove s.elems.length info.children s) x info) x := by
    unfold removeElement
    exact rF_decomp hx
  rw [hdec] at hp
  have hg1 := (foldRemove_good_shrinks s.elems.length info.children s hg).1
  cases hpe : getEntry (foldRemove s.elems.length info.children s).elems p with
  | none =>
    have : getEntry (detachStep (foldRemove s.elems.length info.children s) x info).elems p = none :=
      getEntry_detachStep_dead hpe
    unfold eraseStep at hp
    rw [getEntry_eraseEntry_ne _ _ _ hpx, this] at hp
    cases hp
  | some pinfo =>
    have hdet : getEntry (detachStep (foldRemove s.elems.length info.children s) x info).elems p =
        some { pinfo with children := pinfo.children.erase x } := by
      unfold detachStep
      rw [hparent]
      simp only [if_pos (And.intro hpne2 hproot), hpe]
      exact getEntry_setEntry_self _ _ _
    unfold eraseStep at hp
    rw [getEntry_eraseEntry_ne _ _ _ hpx, hdet] at hp
    cases hp
    have hnd : pinfo.children.Nodup := hg1.2 (p, pinfo) (getEntry_mem hpe)
    exact (hnd.not_mem_erase) hxin

/-- C4: `removeElement(id)` is a no-op (not an error) when `id` is not
live; when `id` is live it removes the recorded children recursively
(children before the node itself), deletes `id` from every surviving
child set (in particular its parent's), and retires `id`, so that
afterwards no live element's parent-reference chain reaches `id`. -/
theorem removeElement_spec (s : Store) (x : String) (h : StoreOk s) :
    (getEntry s.elems x = none → removeElement s x = s) ∧
    (∀ info, getEntry s.elems x = some info →
      getEntry (removeElement s x).elems x = none ∧
      (∀ p pi, getEntry (removeElement s x).elems p = some pi → x ∉ pi.children) ∧
      (∀ y i2, getEntry (removeElement s x).elems y = some i2 →
        ∀ f, reachB f (removeElement s x) y x = false)) := by
  obtain ⟨hn, hch, hpne, hplink, hcs, hroot⟩ := h
  have hg : GoodStore s := ⟨hn, hch⟩
  constructor
  · exact removeElement_absent
  · intro info hx
    refine ⟨removeElement_kill hg, ?_, ?_⟩
    · exact removeElement_detached hg hcs hroot hpne hx
    · intro y i2 hy f
      exact removeElement_no_chain hg hplink hx f y i2 hy

/-- Witness for C4 at a concrete store: removing the live `a` retires it,
the unrelated survivor `d` holds no reference chain to `a` and no child
entry `a`, and removing the absent `zzz` is an exact no-op. -/
theorem removeElement_spec_witness :
    getEntry (removeElement wStore "a").elems "a" = none ∧
    ("a" ∉ ({ parentId := "root", children := [], textContent := "" } : ElemInfo).children) ∧
    reachB 5 (removeElement wStore "a") "d" "a" = false ∧
    removeElement wStore "zzz" = wStore := by
  have h := removeElement_spec wStore "a" (by decide)
  have h2 := h.2 { parentId := "root", children := ["b"], textContent := "" } rfl
  refine ⟨h2.1, ?_, ?_, ?_⟩
  · exact h2.2.1 "d" { parentId := "root", children := [], textContent := "" } rfl
  · exact h2.2.2 "d" { parentId := "root", children := [], textContent := "" } rfl 5
  · exact (removeElement_spec wStore "zzz" (by decide)).1 rfl

/-- C2 counterexample: build `p` under the root and `c` under `p` through
`createElement`, then rename `p` to `q` through `updateElement`.  In the
resulting state the child `c` is live with `parentId` still `p` — not the
new id `q` — while `p` no longer resolves, so invariant I1 is violated by
a reachable state and the stored back-reference of the renamed node's
child does not refer to the new id. -/
theorem updateElement_rename_cex :
    updateElement cexRenameStore "p"
        { id := some (Json.str "q"), textContent := none } =
      Except.ok cexRenamed ∧
    getEntry cexRenamed.elems "c" =
      some { parentId := "p", children := [], textContent := "" } ∧
    getEntry cexRenamed.elems "p" = none ∧
    getEntry cexRenamed.elems "q" =
      some { parentId := "root", children := ["c"], textContent := "" } := by
  exact ⟨rfl, rfl, rfl, rfl⟩


theorem updateElement_rename_eq {s : Store} {oldId newId : String} {info : ElemInfo}
    (hlive : getEntry s.elems oldId = some info)
    (hne : newId ≠ oldId) (hnemp : newId ≠ "") :
    updateElement s oldId { id := some (Json.str newId), textContent := none } =
      Except.ok (detachRename s oldId newId info) := by
  have hs1 : setEntry s.elems oldId info = s.elems := setEntry_eq_of_getEntry hlive
  unfold updateElement detachRename
  rw [hlive]
  simp only [keyOfJson, jsTruthy]
  rw [if_pos (by simpa using And.intro hnemp hne)]
  simp [hs1]

/-- C2 amended: an identity rename via `updateElement` re-keys the node
under the new id carrying its record across, makes the old id no longer
resolve, and swaps the old id for the new one in the parent's child set;
but it leaves every other entry — in particular the children of the
renamed node, whose `parentId` fields still hold the old id — untouched,
so invariant I1 does not survive an identity rename of a node that has
children. -/
theorem updateElement_rename (s : Store) (oldId newId : String) (info : ElemInfo)
    (hn : NodupKeys s) (hlive : getEntry s.elems oldId = some info)
    (hne : newId ≠ oldId) (hnemp : newId ≠ "") (hpn : info.parentId ≠ newId) :
    updateElement s oldId { id := some (Json.str newId), textContent := none } =
      Except.ok (detachRename s oldId newId info) ∧
    getEntry (detachRename s oldId newId info).elems newId = some info ∧
    getEntry (detachRename s oldId newId info).elems oldId = none ∧
    (∀ c, c ≠ oldId → c ≠ newId → c ≠ info.parentId →
      getEntry (detachRename s oldId newId info).elems c = getEntry s.elems c) ∧
    (info.parentId ≠ "" → info.parentId ≠ "root" → info.parentId ≠ oldId →
      ∀ pinfo, getEntry s.elems info.parentId = some pinfo →
        getEntry (detachRename s oldId newId info).elems info.parentId =
          some { pinfo with children := addChild (pinfo.children.erase oldId) newId }) := by
  have hn2 : ((setEntry s.elems newId info).map Prod.fst).Nodup :=
    nodup_keys_setEntry newId info hn
  have g3new : getEntry (eraseEntry (setEntry s.elems newId info) oldId) newId = some info := by
    rw [getEntry_eraseEntry_ne _ _ _ (Ne.symm (Ne.symm hne))]
    exact getEntry_setEntry_self _ _ _
  have g3old : getEntry (eraseEntry (setEntry s.elems newId info) oldId) oldId = none :=
    getEntry_eraseEntry_self hn2
  have g3other : ∀ c, c ≠ oldId → c ≠ newId →
      getEntry (eraseEntry (setEntry s.elems newId info) oldId) c = getEntry s.elems c := by
    intro c hco hcn
    rw [getEntry_eraseEntry_ne _ _ _ hco, getEntry_setEntry_ne _ _ _ _ hcn]
  refine ⟨updateElement_rename_eq hlive hne hnemp, ?_, ?_, ?_, ?_⟩
  · simp only [detachRename]
    split
    · split
      · rename_i pinfo hpe
        rw [getEntry_setEntry_ne _ _ _ _ (Ne.symm hpn)]
        exact g3new
      · exact g3new
    · exact g3new
  · simp only [detachRename]
    split
    · split
      · rename_i pinfo hpe
        by_cases hop : oldId = info.parentId
        · rw [← hop, g3old] at hpe
          cases hpe
        · rw [getEntry_setEntry_ne _ _ _ _ hop]
          exact g3old
      · exact g3old
    · exact g3old
  · intro c hco hcn hcp
    simp only [detachRename]
    split
    · split
      · rename_i pinfo hpe
        rw [getEntry_setEntry_ne _ _ _ _ hcp]
        exact g3other c hco hcn
      · exact g3other c hco hcn
    · exact g3other c hco hcn
  · intro hp1 hp2 hp3 pinfo hps
    have g3p : getEntry (eraseEntry (setEntry s.elems newId info) oldId) info.parentId =
        some pinfo := by
      rw [g3other info.parentId hp3 hpn]
      exact hps
    simp only [detachRename]
    rw [if_pos ⟨hp1, hp2⟩]
    split
    · rename_i pinfo2 hpe
      rw [g3p] at hpe
      cases hpe
      exact getEntry_setEntry_self _ _ _
    · rename_i hpe
      rw [g3p] at hpe
      cases hpe

/-- Witness for C2 at a concrete store: renaming `a` (child `b`, parent
the root) to `n` re-keys it, drops `a`, and leaves `b`'s record — with its
stale `parentId` of `a` — untouched. -/
theorem updateElement_rename_witness :
    updateElement wStore "a" { id := some (Json.str "n"), textContent := none } =
      Except.ok (detachRename wStore "a" "n"
        { parentId := "root", children := ["b"], textContent := "" }) ∧
    getEntry (detachRename wStore "a" "n"
        { parentId := "root", children := ["b"], textContent := "" }).elems "n" =
      some { parentId := "root", children := ["b"], textContent := "" } ∧
    getEntry (detachRename wStore "a" "n"
        { parentId := "root", children := ["b"], textContent := "" }).elems "a" = none ∧
    getEntry (detachRename wStore "a" "n"
        { parentId := "root", children := ["b"], textContent := "" }).elems "b" =
      getEntry wStore.elems "b" := by
  have h := updateElement_rename wStore "a" "n"
    { parentId := "root", children := ["b"], textContent := "" }
    (by decide) rfl (by decide) (by decide) (by decide)
  exact ⟨h.1, h.2.1, h.2.2.1, h.2.2.2.1 "b" (by decide) (by decide) (by decide)⟩

/-- C3 counterexample: in a store where `a` is live under the root, the
call `createElement('a', 'div', \x7bid: 'a'\x7d)` — explicit id equal to
the live id `a`, parent also `a` — installs the new element and then
appends it to the child set of its own parent entry, which is the new
element itself, so the new occupant of `a` has child set `['a']`, not the
empty child set the claim states. -/
theorem createElement_reuse_cex :
    (createElement cexSelfStore "a" "div"
        { id := some (Json.str "a"), textContent := none }).2.elems =
      [("a", { parentId := "a", children := ["a"], textContent := "" })] ∧
    (["a"] : List String) ≠ [] := by
  exact ⟨rfl, by decide⟩

theorem createElement_reuse_eq {s : Store} {X : String} {info : ElemInfo}
    (p tag : String) (hlive : getEntry s.elems X = some info) (hX : X ≠ "") :
    createElement s p tag { id := some (Json.str X), textContent := none } =
      (X, attachStep (installStep (removeElement s X) p X) p X) := by
  unfold createElement installStep attachStep freshInfo
  simp [keyOfJson, jsTruthy, hX, Store.live, hlive, propsText]

theorem getEntry_installStep {s1 : Store} {p X y : String} :
    getEntry (installStep s1 p X).elems y =
      if y = X then some (freshInfo p) else getEntry s1.elems y := by
  unfold installStep
  by_cases hy : y = X
  · subst hy
    simp [getEntry_setEntry_self]
  · simp [hy, getEntry_setEntry_ne _ _ _ _ hy]

theorem attachStep_parent_map {s2 : Store} {p X y : String} :
    Option.map (fun i => i.parentId) (getEntry (attachStep s2 p X).elems y) =
      Option.map (fun i => i.parentId) (getEntry s2.elems y) := by
  unfold attachStep
  split
  · split
    · rename_i pinfo hpe
      by_cases hy : y = p
      · subst hy
        rw [getEntry_setEntry_self, hpe]
        rfl
      · rw [getEntry_setEntry_ne _ _ _ _ hy]
    · rfl
  · rfl

/-- C3 amended: creating with an explicit `props.id` equal to a live id
`X` first removes the previous occupant of `X` (afterwards no live
parent-reference chain leads to `X`, and in particular the old occupant's
recorded children are gone), then installs the new element, which `X`
resolves to; its child set is empty provided the supplied parent id is
not `X` itself — when parent and id coincide, the new node is appended to
its own child set (the counterexample). -/
theorem createElement_reuse (s : Store) (X p tag : String) (info : ElemInfo)
    (hok : StoreOk s) (hlive : getEntry s.elems X = some info) (hX : X ≠ "")
    (hpX : p ≠ X) :
    (createElement s p tag { id := some (Json.str X), textContent := none }).1 = X ∧
    getEntry (createElement s p tag
        { id := some (Json.str X), textContent := none }).2.elems X =
      some (freshInfo p) ∧
    (∀ c ∈ info.children, c ≠ X →
      getEntry (createElement s p tag
        { id := some (Json.str X), textContent := none }).2.elems c = none) ∧
    (∀ y i2, y ≠ X →
      getEntry (createElement s p tag
        { id := some (Json.str X), textContent := none }).2.elems y = some i2 →
      ∀ f, reachB f (createElement s p tag
        { id := some (Json.str X), textContent := none }).2 y X = false) := by
  obtain ⟨hn, hch, hpne, hplink, hcs, hroot⟩ := hok
  have hg : GoodStore s := ⟨hn, hch⟩
  rw [createElement_reuse_eq p tag hlive hX]
  have hXr : getEntry (removeElement s X).elems X = none := removeElement_kill hg
  have hs2X : getEntry (installStep (removeElement s X) p X).elems X =
      some (freshInfo p) := by
    rw [getEntry_installStep]
    simp
  refine ⟨rfl, ?_, ?_, ?_⟩
  · unfold attachStep
    split
    · split
      · rename_i pinfo hpe
        rw [getEntry_setEntry_ne _ _ _ _ (Ne.symm hpX)]
        exact hs2X
      · exact hs2X
    · exact hs2X
  · intro c hc hcX
    have h1 : getEntry (removeElement s X).elems c = none :=
      removeElement_children_dead hg hlive c hc
    have h2 : getEntry (installStep (removeElement s X) p X).elems c = none := by
      rw [getEntry_installStep, if_neg hcX]
      exact h1
    unfold attachStep
    split
    · split
      · rename_i pinfo hpe
        have hcp : c ≠ p := by
          intro he
          rw [he, hpe] at h2
          cases h2
        rw [getEntry_setEntry_ne _ _ _ _ hcp]
        exact h2
      · exact h2
    · exact h2
  · -- relate parent maps of the final state to the post-removal state
    have hparmap : ∀ y, y ≠ X →
        Option.map (fun i => i.parentId)
          (getEntry (attachStep (installStep (removeElement s X) p X) p X).elems y) =
        Option.map (fun i => i.parentId) (getEntry (removeElement s X).elems y) := by
      intro y hy
      rw [attachStep_parent_map, getEntry_installStep, if_neg hy]
    intro y i2 hy hsome f
    induction f generalizing y i2 with
    | zero =>
      simp [reachB, hy]
    | succ f ihf =>
      have hmap := hparmap y hy
      rw [hsome] at hmap
      cases h1 : getEntry (removeElement s X).elems y with
      | none => rw [h1] at hmap; cases hmap
      | some i1 =>
        rw [h1] at hmap
        have hpp : i2.parentId = i1.parentId := by
          simpa using hmap
        by_cases hrt : i2.parentId = "root"
        · simp [reachB, hy, hsome, hrt]
        · have hz : i2.parentId ≠ X := by
            intro he
            have hXroot : X ≠ "root" := by
              intro hxe
              rw [hxe] at he
              exact hrt he
            have := removeElement_no_live_child hg hplink hlive hXroot y i1 h1
            rw [hpp] at he
            exact this he
          cases hzl : getEntry (attachStep (installStep (removeElement s X) p X) p X).elems i2.parentId with
          | none =>
            simp [reachB, hy, hsome, hrt, reachB_dead hzl hz]
          | some iz =>
            simp [reachB, hy, hsome, hrt, ihf i2.parentId iz hz hzl]

/-- Witness for C3: in `wStore` (where `a` is live with child `b`),
creating under the root with explicit id `a` yields id `a`, a fresh
childless record for `a`, kills the old child `b`, and leaves the
survivor `d` with no chain to `a`. -/
theorem createElement_reuse_witness :
    (createElement wStore "root" "div"
        { id := some (Json.str "a"), textContent := none }).1 = "a" ∧
    getEntry (createElement wStore "root" "div"
        { id := some (Json.str "a"), textContent := none }).2.elems "a" =
      some (freshInfo "root") ∧
    getEntry (createElement wStore "root" "div"
        { id := some (Json.str "a"), textContent := none }).2.elems "b" = none ∧
    reachB 5 (createElement wStore "root" "div"
        { id := some (Json.str "a"), textContent := none }).2 "d" "a" = false := by
  have h := createElement_reuse wStore "a" "root" "div"
    { parentId := "root", children := ["b"], textContent := "" }
    (by decide) rfl (by decide) (by decide)
  refine ⟨h.1, h.2.1, ?_, ?_⟩
  · exact h.2.2.1 "b" (by decide) (by decide)
  · exact h.2.2.2 "d" { parentId := "root", children := [], textContent := "" }
      (by decide) rfl 5

/-- C9: `appendText` is associative with respect to splitting — from any
state in which the target is live, appending `t1` and then `t2` produces
exactly the state a single append of `t1 ++ t2` produces. -/
theorem appendText_split_assoc (s : Store) (eid : String) (info : ElemInfo)
    (t1 t2 : String) (hlive : getEntry s.elems eid = some info) :
    (appendTextStore s eid t1).bind (fun s1 => appendTextStore s1 eid t2) =
      appendTextStore s eid (t1 ++ t2) := by
  unfold appendTextStore
  rw [hlive]
  simp only [Except.bind, getEntry_setEntry_self, setEntry_setEntry,
    String.append_assoc]

/-- Witness for C9: appending `He` then `llo` onto the live `b` of
`wStore` equals one append of `Hello`. -/
theorem appendText_split_assoc_witness :
    (appendTextStore wStore "b" "He").bind (fun s1 => appendTextStore s1 "b" "llo") =
      appendTextStore wStore "b" "Hello" := by
  exact appendText_split_assoc wStore "b"
    { parentId := "a", children := [], textContent := "x" } "He" "llo" rfl

theorem executeToolCall_setText (s : Store) (a : ToolArgs) :
    executeToolCall s { name := "setText", args := a } =
      (match parseToolArgs a with
       | Except.error e => Except.error e
       | Except.ok pargs =>
         toolSetText s (getField pargs "elementId") (textArg pargs)) := rfl

theorem executeToolCall_appendText (s : Store) (a : ToolArgs) :
    executeToolCall s { name := "appendText", args := a } =
      (match parseToolArgs a with
       | Except.error e => Except.error e
       | Except.ok pargs =>
         toolAppendText s (getField pargs "elementId") (textArg pargs)) := rfl

theorem executeToolCall_h (s : Store) (a : ToolArgs) :
    executeToolCall s { name := "h", args := a } =
      (match parseToolArgs a with
       | Except.error e => Except.error e
       | Except.ok pargs =>
         toolH s (getField pargs "parentId") (getField pargs "tagName")
           (propsArg pargs)) := rfl

/-- C10: a `setText` or `appendText` instruction dispatched with an
arguments object that names a live element but omits the `text` field (or
carries a JS-falsy `text` such as `null`) succeeds, behaving exactly as
`text = ""`: `setText` clears the element's text and `appendText` returns
the store unchanged. -/
theorem dispatch_text_default (s : Store) (fields : List (String × Json))
    (eid : String) (info : ElemInfo)
    (hid : getField (Json.obj fields) "elementId" = some (Json.str eid))
    (hne : eid ≠ "")
    (hlive : getEntry s.elems eid = some info)
    (htext : FalsyText (getField (Json.obj fields) "text")) :
    executeToolCall s { name := "setText", args := ToolArgs.val (Json.obj fields) } =
      Except.ok (successResult eid,
        { s with elems := setEntry s.elems eid { info with textContent := "" } }) ∧
    executeToolCall s { name := "appendText", args := ToolArgs.val (Json.obj fields) } =
      Except.ok (successResult eid, s) := by
  have hparse : parseToolArgs (ToolArgs.val (Json.obj fields)) =
      Except.ok (Json.obj fields) := by
    simp [parseToolArgs, jsTruthy]
  have htA : textArg (Json.obj fields) = Json.str "" := by
    unfold textArg
    cases hgf : getField (Json.obj fields) "text" with
    | none => rfl
    | some v =>
      unfold FalsyText at htext
      rw [hgf] at htext
      simp [htext]
  have hchk : checkElementId (getField (Json.obj fields) "elementId") =
      Except.ok eid := by
    rw [hid]
    simp [checkElementId, hne]
  have ht0 : (if jsTruthy (Json.str "") = true
      then jsToString (Json.str "") else "") = "" := by decide
  constructor
  · rw [executeToolCall_setText, hparse]
    simp only
    unfold toolSetText
    rw [hchk, htA]
    simp only [ht0]
    unfold setTextStore
    rw [hlive]
  · rw [executeToolCall_appendText, hparse]
    simp only
    unfold toolAppendText
    rw [hchk, htA]
    simp only [ht0]
    unfold appendTextStore
    simp only [hlive, String.append_empty]
    have hsame : setEntry s.elems eid
        { info with textContent := info.textContent } = s.elems := by
      have hinfo : ({ info with textContent := info.textContent } : ElemInfo) = info := rfl
      rw [hinfo]
      exact setEntry_eq_of_getEntry hlive
    rw [hsame]

/-- Witness for C10 at a concrete store: a `setText` with `text: null` on
the live `b` clears its text; an `appendText` with the same falsy `text`
leaves the store unchanged. -/
theorem dispatch_text_default_witness :
    executeToolCall wStore
        { name := "setText"
          args := ToolArgs.val (Json.obj [("elementId", Json.str "b"), ("text", Json.null)]) } =
      Except.ok (successResult "b",
        { wStore with elems := setEntry wStore.elems "b" { parentId := "a", children := [], textContent := "" } }) ∧
    executeToolCall wStore
        { name := "appendText"
          args := ToolArgs.val (Json.obj [("elementId", Json.str "b"), ("text", Json.null)]) } =
      Except.ok (successResult "b", wStore) := by
  exact dispatch_text_default wStore
    [("elementId", Json.str "b"), ("text", Json.null)] "b"
    { parentId := "a", children := [], textContent := "x" }
    rfl (by decide) rfl rfl

/-- C6: one fenced instruction block split across two `parseTextChunk`
calls — opening fence, language tag and half the JSON in the first call,
the rest plus the closing fence in the second — yields no instructions
after the first call and exactly the single valid element of the block's
JSON array after the second. -/
theorem parseTextChunk_split_block :
    (parseTextChunk initTextState wChunk1).2 = [] ∧
    (parseTextChunk (parseTextChunk initTextState wChunk1).1 wChunk2).2 =
      [wSplitCmd] := by
  exact ⟨rfl, rfl⟩

/-- C7: batch execution returns one result per instruction, in input
order, each carrying its instruction; a failing middle instruction is
marked failed without aborting the batch, and both surrounding valid
instructions' effects reach the store (the created `box` ends live with
text `hi`). -/
theorem executeToolCalls_batch :
    (∀ (s : Store) (tcs : List ToolCall),
      ((executeToolCalls s tcs).1.map (fun r => r.toolCall)) = tcs) ∧
    ((executeToolCalls initStore [wCreate, wMalformed, wSetText]).1.map
        (fun r => (r.success, r.errMsg))) =
      [(true, none), (false, some "Invalid JSON arguments: \x7boops"), (true, none)] ∧
    getEntry (executeToolCalls initStore [wCreate, wMalformed, wSetText]).2.elems "box" =
      some { parentId := "root", children := [], textContent := "hi" } := by
  refine ⟨?_, rfl, rfl⟩
  intro s tcs
  induction tcs generalizing s with
  | nil => rfl
  | cons tc rest ih =>
    unfold executeToolCalls
    cases executeToolCall s tc with
    | ok pr => simp [ih]
    | error e => simp [ih]

/-- C1 counterexample: the single-instruction `executeToolCall` lets
failures escape as exceptions (modelled `Except.error`) instead of
returning a `\x7bsuccess: false\x7d` envelope: an unknown instruction
name throws `Unknown tool`, and string arguments that are not valid JSON
throw `Invalid JSON arguments`. -/
theorem executeToolCall_raises_cex :
    executeToolCall initStore { name := "nope", args := ToolArgs.str "\x7b\x7d" } =
      Except.error "Unknown tool: nope" ∧
    executeToolCall initStore wMalformed =
      Except.error "Invalid JSON arguments: \x7boops" := by
  exact ⟨rfl, rfl⟩

/-- C1 amended: `executeToolCall` itself raises on unknown names, invalid
JSON arguments and store failures; the uniform result envelope is
produced by the batch wrapper `executeToolCalls`, which returns exactly
one envelope per instruction — success with a result and no error
message, or failure with an error message and no result — and never
raises; a singleton batch returns exactly the envelope of the
single-instruction outcome. -/
theorem executeToolCalls_envelope :
    (∀ (s : Store) (tcs : List ToolCall),
      (executeToolCalls s tcs).1.length = tcs.length) ∧
    (∀ (s : Store) (tcs : List ToolCall),
      ((executeToolCalls s tcs).1.all (fun r =>
        (r.success && r.errMsg.isNone && r.result.isSome) ||
        (!r.success && r.errMsg.isSome && r.result.isNone))) = true) ∧
    (∀ (s : Store) (tc : ToolCall),
      (executeToolCalls s [tc]).1 = [envelopeOf tc (executeToolCall s tc)]) := by
  refine ⟨?_, ?_, ?_⟩
  · intro s tcs
    induction tcs generalizing s with
    | nil => rfl
    | cons tc rest ih =>
      unfold executeToolCalls
      cases executeToolCall s tc with
      | ok pr => simp [ih]
      | error e => simp [ih]
  · intro s tcs
    induction tcs generalizing s with
    | nil => rfl
    | cons tc rest ih =>
      unfold executeToolCalls
      cases executeToolCall s tc with
      | ok pr => simp [ih]
      | error e => simp [ih]
  · intro s tc
    unfold executeToolCalls envelopeOf
    cases executeToolCall s tc with
    | ok pr => rfl
    | error e => rfl

/-- C8 counterexample: a creation instruction whose `tagName` is the
empty string is rejected — `executeToolCall` throws `tagName must be a
non-empty string` (surfacing through the batch wrapper as a failed
envelope with the store untouched) — rather than defaulting the label to
a generic container and creating a node. -/
theorem toolH_empty_tagName_cex :
    executeToolCall initStore
        { name := "h"
          args := ToolArgs.val (Json.obj [("parentId", Json.null), ("tagName", Json.str "")]) } =
      Except.error "tagName must be a non-empty string" ∧
    (executeToolCalls initStore
        [{ name := "h"
           args := ToolArgs.val (Json.obj [("parentId", Json.null), ("tagName", Json.str "")]) }]).2 =
      initStore := by
  exact ⟨rfl, rfl⟩

/-- C8 amended: a creation instruction whose `tagName` argument is
missing, empty, or not a string is rejected with the thrown error
`tagName must be a non-empty string` (a failed envelope in batch
execution, with no element created); no defaulting to a generic container
label exists. -/
theorem toolH_rejects_bad_tagName (s : Store) (fields : List (String × Json))
    (hbad : BadTagName (getField (Json.obj fields) "tagName")) :
    executeToolCall s { name := "h", args := ToolArgs.val (Json.obj fields) } =
      Except.error "tagName must be a non-empty string" := by
  have hparse : parseToolArgs (ToolArgs.val (Json.obj fields)) =
      Except.ok (Json.obj fields) := by
    simp [parseToolArgs, jsTruthy]
  rw [executeToolCall_h, hparse]
  simp only
  cases hgf : getField (Json.obj fields) "tagName" with
  | none => simp [toolH, hgf]
  | some v =>
    unfold BadTagName at hbad
    rw [hgf] at hbad
    cases v with
    | str t =>
      have ht : t = "" := hbad
      subst ht
      simp [toolH, hgf]
    | null => simp [toolH, hgf]
    | bool b => simp [toolH, hgf]
    | num m e => simp [toolH, hgf]
    | arr xs => simp [toolH, hgf]
    | obj fs => simp [toolH, hgf]

/-- Witness for C8: an arguments object with no `tagName` field at all is
rejected with the same error. -/
theorem toolH_rejects_bad_tagName_witness :
    executeToolCall initStore
        { name := "h", args := ToolArgs.val (Json.obj [("parentId", Json.null)]) } =
      Except.error "tagName must be a non-empty string" := by
  exact toolH_rejects_bad_tagName initStore [("parentId", Json.null)] trivial

/-! ## Command-parser (structured-delta feed) lemmas -/

theorem applyDelta_index (e : BufEntry) (d : DeltaToolCall) :
    (applyDelta e d).index = e.index := by
  unfold applyDelta
  cases d.id <;> cases d.name <;> cases d.args <;>
    simp only [] <;> (repeat' split) <;> rfl

theorem bufKeyed_processDelta {st : CmdParserState} (d : DeltaToolCall)
    (h : BufKeyed st) : BufKeyed (processDelta st d).1 := by
  unfold processDelta
  by_cases hc : st.completed.contains (slotKeyOf d.index)
  · simp only [hc, if_true]
    exact h
  · simp only [hc, Bool.false_eq_true, if_false]
    split
    · intro e he
      exact h e (mem_eraseEntry he)
    · intro e he
      rcases mem_setEntry he with hm | hm
      · exact h e hm
      · subst hm
        simp only [applyDelta_index]
        cases hg : getEntry st.buffer (slotKeyOf d.index) with
        | some e0 =>
          simp only [hg]
          exact h _ (getEntry_mem hg)
        | none =>
          simp only [hg, initialEntry]

theorem processDelta_completed_mono {st : CmdParserState} {k : String}
    (d : DeltaToolCall) (h : k ∈ st.completed) :
    k ∈ (processDelta st d).1.completed := by
  unfold processDelta
  by_cases hc : st.completed.contains (slotKeyOf d.index)
  · simp only [hc, if_true]
    exact h
  · simp only [hc, Bool.false_eq_true, if_false]
    split
    · exact List.mem_append_left _ h
    · exact h

theorem processDelta_emit_key {st : CmdParserState} {d : DeltaToolCall}
    {e : EmittedCall} (hk : BufKeyed st) (he : (processDelta st d).2 = some e) :
    slotKeyOf e.index = slotKeyOf d.index ∧
      slotKeyOf d.index ∈ (processDelta st d).1.completed ∧
      st.completed.contains (slotKeyOf d.index) = false := by
  unfold processDelta at he ⊢
  by_cases hc : st.completed.contains (slotKeyOf d.index)
  · simp only [hc, if_true] at he
    cases he
  · simp only [hc, Bool.false_eq_true, if_false] at he ⊢
    split at he
    · rename_i hcomp
      cases he
      simp only [applyDelta_index]
      refine ⟨?_, ?_, by simpa using hc⟩
      · cases hg : getEntry st.buffer (slotKeyOf d.index) with
        | some e0 =>
          simp only [hg]
          exact (hk _ (getEntry_mem hg)).symm
        | none =>
          simp only [hg, initialEntry]
      · simp only [hcomp, if_true]
        exact List.mem_append_right _ (List.mem_singleton.mpr rfl)
    · cases he

theorem processDelta_no_reemit {st : CmdParserState} {d : DeltaToolCall}
    {e : EmittedCall} {k : String} (hkc : k ∈ st.completed) (hk : BufKeyed st)
    (he : (processDelta st d).2 = some e) : slotKeyOf e.index ≠ k := by
  obtain ⟨hkey, -, hcont⟩ := processDelta_emit_key hk he
  intro hcontra
  rw [hcontra] at hkey
  rw [hkey] at hkc
  have : st.completed.contains (slotKeyOf d.index) = true := by
    simpa using hkc
  rw [this] at hcont
  cases hcont

theorem bufKeyed_processDeltas {st : CmdParserState} (ds : List DeltaToolCall)
    (h : BufKeyed st) : BufKeyed (processDeltas st ds).1 := by
  induction ds generalizing st with
  | nil => exact h
  | cons d rest ih =>
    unfold processDeltas
    exact ih (bufKeyed_processDelta d h)

theorem processDeltas_completed_mono {st : CmdParserState} {k : String}
    (ds : List DeltaToolCall) (h : k ∈ st.completed) :
    k ∈ (processDeltas st ds).1.completed := by
  induction ds generalizing st with
  | nil => exact h
  | cons d rest ih =>
    unfold processDeltas
    exact ih (processDelta_completed_mono d h)

theorem processDeltas_emit_completed {st : CmdParserState} {e : EmittedCall}
    (ds : List DeltaToolCall) (hk : BufKeyed st)
    (he : e ∈ (processDeltas st ds).2) :
    slotKeyOf e.index ∈ (processDeltas st ds).1.completed := by
  induction ds generalizing st with
  | nil => cases he
  | cons d rest ih =>
    unfold processDeltas at he ⊢
    rcases List.mem_append.mp he with hm | hm
    · cases hemit : (processDelta st d).2 with
      | none => rw [hemit] at hm; cases hm
      | some e0 =>
        rw [hemit] at hm
        have : e = e0 := by simpa using hm
        subst this
        obtain ⟨hkey, hmem, -⟩ := processDelta_emit_key hk hemit
        rw [hkey]
        exact processDeltas_completed_mono rest hmem
    · exact ih (bufKeyed_processDelta d hk) hm

theorem processDeltas_completed_no_emit {st : CmdParserState} {k : String}
    (ds : List DeltaToolCall) (hkc : k ∈ st.completed) (hk : BufKeyed st) :
    ∀ e ∈ (processDeltas st ds).2, slotKeyOf e.index ≠ k := by
  induction ds generalizing st with
  | nil => intro e he; cases he
  | cons d rest ih =>
    intro e he
    unfold processDeltas at he
    rcases List.mem_append.mp he with hm | hm
    · cases hemit : (processDelta st d).2 with
      | none => rw [hemit] at hm; cases hm
      | some e0 =>
        rw [hemit] at hm
        have : e = e0 := by simpa using hm
        subst this
        exact processDelta_no_reemit hkc hk hemit
    · exact ih (processDelta_completed_mono d hkc) (bufKeyed_processDelta d hk) e hm

/-- C5: once the structured-delta feed has emitted the instruction for a
slot key (its accumulated name non-empty and its payload parsing as
JSON), no later fragment sequence bearing that slot key ever produces a
second emission — redelivered fragments for a retired slot are ignored. -/
theorem parseChunk_no_reemit (ds1 ds2 : List DeltaToolCall) (e : EmittedCall)
    (hemit : e ∈ (processDeltas initCmdState ds1).2) :
    ((processDeltas (processDeltas initCmdState ds1).1 ds2).2.all
      (fun e2 => slotKeyOf e2.index != slotKeyOf e.index)) = true := by
  have hk0 : BufKeyed initCmdState := by
    intro x hx
    cases hx
  have hcomp := processDeltas_emit_completed ds1 hk0 hemit
  have hbk1 := bufKeyed_processDeltas ds1 hk0
  rw [List.all_eq_true]
  intro e2 he2
  have hne := processDeltas_completed_no_emit ds2 hcomp hbk1 e2 he2
  simpa using hne

/-- Witness for C5: the two fragments of slot 0 assemble and emit
`wEmitted`; redelivering both fragments afterwards emits nothing for that
slot key. -/
theorem parseChunk_no_reemit_witness :
    ((processDeltas (processDeltas initCmdState [wDelta1, wDelta2]).1
        [wDelta1, wDelta2]).2.all
      (fun e2 => slotKeyOf e2.index != slotKeyOf wEmitted.index)) = true := by
  exact parseChunk_no_reemit [wDelta1, wDelta2] [wDelta1, wDelta2] wEmitted
    (by decide)
